import Mathlib

/-!
# B+Tree node layer (`BTreeNode.cc`)

A shallow embedding of the leaf and non-leaf node operations of `BTreeNode.cc`.

* `std::list<T>` is a Lean `List T`; an iterator is a position in the list.
  Advancing an iterator past `end()`, dereferencing `end()` and copying past the
  end of the page buffer are undefined behaviour in C++; an embedded operation
  that can do so returns an `Option`, and `none` stands for exactly those
  executions.
* `int` / `PageId` values are `Int`.  Keys, record identifiers and page
  identifiers are only compared and copied; `length` is counted up and down by
  one and stays far from the 32-bit limits in every statement below.  The 32-bit
  width matters for the page format, where the encoding reduces modulo `2 ^ 32`.
* Reference (`&`) output parameters are passed in and returned.
* `PageFile` is the backing store: `write` yields the page buffer handed to it,
  `read` starts from the page buffer it delivered; `PageFile::PAGE_SIZE` is the
  parameter `pageSize`.
-/

namespace BTreeNode

/-! ## Constants and shared types -/

/-- The constant `MAX_KEYS` of `BTreeNode.cc`. -/
def MAX_KEYS : Nat := 75

/-- The local `half = ceil(MAX_KEYS/2.0)` of both `insertAndSplit` functions:
the ceiling of `75 / 2`, computed on naturals. -/
def half : Nat := (MAX_KEYS + 1) / 2

/-- Modelled from the spec: the return codes `RC` are declared in a header that
is not part of the source file.  `ok` is the value `0`; the other four are the
(negative) error codes the node layer returns, kept under their source names. -/
inductive RC where
  | ok
  | RC_NODE_FULL
  | RC_NO_SUCH_RECORD
  | RC_INVALID_RID
  | RC_INVALID_PID
  deriving DecidableEq, Repr

/-- Modelled from the spec: `RecordId` is declared in a header that is not part
of the source file; it is a token of two 32-bit fields, `pid` and `sid`. -/
structure RecordId where
  pid : Int
  sid : Int
  deriving DecidableEq, Repr

/-- The effect of `std::list::insert(it, x)` where `it` is `pos` steps after `begin()`. -/
def listInsert {α : Type} (l : List α) (pos : Nat) (x : α) : List α :=
  l.take pos ++ x :: l.drop pos

/-- The scan loop shared by both `insertWithoutCheck` functions:
`for (it = keys.begin(); it != keys.end(); it++) if (*it < key) index++; else break;`.
The result is `index`, which is also the position of `it` when the loop ends. -/
def scanIndex (key : Int) : List Int → Nat
  | [] => 0
  | k :: ks => if k < key then scanIndex key ks + 1 else 0

/-! ## Leaf node -/

/-- The data members of `BTLeafNode` (the scratch `buffer` is rewritten from
scratch by every `read` and `write` and carries no state). -/
structure BTLeafNode where
  isLeaf : Int
  length : Int
  id : Int
  nextLeaf : Int
  keys : List Int
  records : List RecordId
  deriving DecidableEq, Repr

namespace BTLeafNode

/-- The constructor `BTLeafNode::BTLeafNode(PageId id)`. -/
def create (id : Int) : BTLeafNode :=
  { isLeaf := 1, length := 0, id := id, nextLeaf := -1, keys := [], records := [] }

/-- `BTLeafNode::getPageId`. -/
def getPageId (n : BTLeafNode) : Int := n.id

/-- `BTLeafNode::getKeyCount`. -/
def getKeyCount (n : BTLeafNode) : Int := n.length

/-- `BTLeafNode::getNextNodePtr`. -/
def getNextNodePtr (n : BTLeafNode) : Int := n.nextLeaf

/-- `BTLeafNode::setNextNodePtr` (its return code is always `0`). -/
def setNextNodePtr (n : BTLeafNode) (pid : Int) : BTLeafNode := { n with nextLeaf := pid }

/-- `BTLeafNode::insertWithoutCheck`.  `recIt` is advanced `index` times from
`records.begin()`, which is undefined when `records` has fewer than `index` elements. -/
def insertWithoutCheck (n : BTLeafNode) (key : Int) (rid : RecordId) : Option (RC × BTLeafNode) :=
  let index := scanIndex key n.keys
  if index ≤ n.records.length then
    some (RC.ok,
      { n with
        keys := listInsert n.keys index key
        records := listInsert n.records index { pid := rid.pid, sid := rid.sid }
        length := n.length + 1 })
  else none

/-- `BTLeafNode::insert`. -/
def insert (n : BTLeafNode) (key : Int) (rid : RecordId) : Option (RC × BTLeafNode) :=
  if n.length ≥ (MAX_KEYS : Int) then some (RC.RC_NODE_FULL, n)
  else insertWithoutCheck n key rid

/-- `BTLeafNode::insert_end` (its return code is always `0`, so the
`errorCode < 0` test after each call is never taken). -/
def insert_end (n : BTLeafNode) (key : Int) (rid : RecordId) : BTLeafNode :=
  { n with
    records := n.records ++ [{ pid := rid.pid, sid := rid.sid }]
    keys := n.keys ++ [key]
    length := n.length + 1 }

/-- `BTLeafNode::readEntry`; `key` and `rid` are the output parameters.  After the
bounds test the iterators are advanced `eid` times and dereferenced, which is
undefined when a list has no element at that position. -/
def readEntry (n : BTLeafNode) (eid : Int) (key : Int) (rid : RecordId) :
    Option (RC × Int × RecordId) :=
  if eid ≥ n.length ∨ eid < 0 then some (RC.RC_NO_SUCH_RECORD, key, rid)
  else
    match n.keys[eid.toNat]?, n.records[eid.toNat]? with
    | some k, some r => some (RC.ok, k, r)
    | _, _ => none

/-- The `while (keyIt != keys.end())` loop of `BTLeafNode::insertAndSplit`, started
with the parts of `keys` and `records` from `keyIt` and `recIt` on.  Each round
appends the current entry to the sibling, erases it here and decrements `length`.
The result is what is left of `records` from `recIt` on, the new `length` and the
sibling.  Dereferencing `recIt` at `records.end()` is undefined. -/
def splitLoop : List Int → List RecordId → Int → BTLeafNode →
    Option (List RecordId × Int × BTLeafNode)
  | [], rs, len, sib => some (rs, len, sib)
  | k :: ks, r :: rs, len, sib => splitLoop ks rs (len - 1) (sib.insert_end k r)
  | _ :: _, [], _, _ => none

/-- The outcome of `BTLeafNode::insertAndSplit`: the return code, this node,
the sibling and the output parameter `siblingKey`. -/
structure SplitResult where
  rc : RC
  node : BTLeafNode
  sibling : BTLeafNode
  siblingKey : Int
  deriving DecidableEq, Repr

/-- `BTLeafNode::insertAndSplit`.  The two iterators are advanced `half` times,
which is undefined when a list has fewer than `half` elements.  `sibRec` is an
uninitialised local that is only written to. -/
def insertAndSplit (n : BTLeafNode) (key : Int) (rid : RecordId)
    (sibling : BTLeafNode) (siblingKey : Int) : Option SplitResult :=
  if n.length < (MAX_KEYS : Int) then
    some { rc := RC.RC_INVALID_RID, node := n, sibling := sibling, siblingKey := siblingKey }
  else
    match insertWithoutCheck n key rid with
    | none => none
    | some (_, n1) =>
      if half ≤ n1.keys.length ∧ half ≤ n1.records.length then
        match splitLoop (n1.keys.drop half) (n1.records.drop half) n1.length sibling with
        | none => none
        | some (rest, len, sib) =>
          let n2 : BTLeafNode :=
            { n1 with keys := n1.keys.take half, records := n1.records.take half ++ rest,
                      length := len }
          let sib1 := sib.setNextNodePtr n2.nextLeaf
          let n3 : BTLeafNode := { n2 with nextLeaf := sib1.getPageId }
          match sib1.readEntry 0 siblingKey { pid := 0, sid := 0 } with
          | none => none
          | some (errorCode, k, _) =>
            some { rc := errorCode, node := n3, sibling := sib1, siblingKey := k }
      else none

/-- The loop of `BTLeafNode::locate` over the keys from `it` on, with the current `eid`;
the fall-through case is the `eid--` after the loop. -/
def locateLoop (searchKey : Int) : List Int → Int → RC × Int
  | [], eid => (RC.RC_NO_SUCH_RECORD, eid - 1)
  | k :: ks, eid =>
    if searchKey = k then (RC.ok, eid)
    else if searchKey < k then (RC.RC_NO_SUCH_RECORD, eid)
    else locateLoop searchKey ks (eid + 1)

/-- `BTLeafNode::locate`; the result carries the output parameter `eid`, which the
function sets to `0` before anything else.  `*it` on an empty `keys` dereferences
`end()`. -/
def locate (n : BTLeafNode) (searchKey : Int) : Option (RC × Int) :=
  match n.keys with
  | [] => none
  | k :: _ =>
    if searchKey < k then some (RC.RC_NO_SUCH_RECORD, 0)
    else some (locateLoop searchKey n.keys 0)

/-- The entry sequence of a leaf: the keys paired with their record identifiers. -/
def entries (n : BTLeafNode) : List (Int × RecordId) := n.keys.zip n.records

/-- A leaf whose `length` is the number of stored keys and of stored records. -/
def WF (n : BTLeafNode) : Prop :=
  (n.keys.length : Int) = n.length ∧ n.records.length = n.keys.length

instance (n : BTLeafNode) : Decidable n.WF := by unfold WF; infer_instance

end BTLeafNode

/-! ## Non-leaf node -/

/-- The data members of `BTNonLeafNode` (without the scratch `buffer`). -/
structure BTNonLeafNode where
  isLeaf : Int
  length : Int
  id : Int
  lastId : Int
  keys : List Int
  pages : List Int
  deriving DecidableEq, Repr

namespace BTNonLeafNode

/-- The constructor `BTNonLeafNode::BTNonLeafNode(PageId id)`.  It leaves the member
`lastId` uninitialised; `lastId` here is whatever value the member holds. -/
def create (id : Int) (lastId : Int) : BTNonLeafNode :=
  { isLeaf := 0, length := 0, id := id, lastId := lastId, keys := [], pages := [] }

/-- `BTNonLeafNode::getPageId`. -/
def getPageId (n : BTNonLeafNode) : Int := n.id

/-- `BTNonLeafNode::setLastId`. -/
def setLastId (n : BTNonLeafNode) (last : Int) : BTNonLeafNode := { n with lastId := last }

/-- `BTNonLeafNode::getLastId`. -/
def getLastId (n : BTNonLeafNode) : Int := n.lastId

/-- `BTNonLeafNode::getKeyCount`. -/
def getKeyCount (n : BTNonLeafNode) : Int := n.length

/-- `BTNonLeafNode::insertWithoutCheck`.  When the scan ends at `keys.end()` the
entry is appended and `lastId` changes; otherwise `pageIt` is advanced `index + 1`
times from `pages.begin()`, which is undefined when `pages` is shorter than that. -/
def insertWithoutCheck (n : BTNonLeafNode) (key : Int) (pid : Int) :
    Option (RC × BTNonLeafNode) :=
  let index := scanIndex key n.keys
  if index = n.keys.length then
    some (RC.ok,
      { n with
        keys := n.keys ++ [key]
        pages := n.pages ++ [n.lastId]
        lastId := pid
        length := n.length + 1 })
  else if index + 1 ≤ n.pages.length then
    some (RC.ok,
      { n with
        keys := listInsert n.keys index key
        pages := listInsert n.pages (index + 1) pid
        length := n.length + 1 })
  else none

/-- `BTNonLeafNode::insert`. -/
def insert (n : BTNonLeafNode) (key : Int) (pid : Int) : Option (RC × BTNonLeafNode) :=
  if n.length ≥ (MAX_KEYS : Int) then some (RC.RC_NODE_FULL, n)
  else insertWithoutCheck n key pid

/-- `BTNonLeafNode::insert_end` (its return code is always `0`). -/
def insert_end (n : BTNonLeafNode) (key : Int) (pid : Int) : BTNonLeafNode :=
  { n with
    pages := n.pages ++ [pid]
    keys := n.keys ++ [key]
    length := n.length + 1 }

/-- The `while (keyIt != keys.end())` loop of `BTNonLeafNode::insertAndSplit`, on the
parts of `keys` and `pages` from `keyIt` and `pageIt` on.  The result is what is
left of `pages` from `pageIt` on, the new `length` and the sibling. -/
def splitLoop : List Int → List Int → Int → BTNonLeafNode →
    Option (List Int × Int × BTNonLeafNode)
  | [], ps, len, sib => some (ps, len, sib)
  | k :: ks, p :: ps, len, sib => splitLoop ks ps (len - 1) (sib.insert_end k p)
  | _ :: _, [], _, _ => none

/-- The outcome of `BTNonLeafNode::insertAndSplit`: the return code, this node,
the sibling and the output parameter `midKey`. -/
structure SplitResult where
  rc : RC
  node : BTNonLeafNode
  sibling : BTNonLeafNode
  midKey : Int
  deriving DecidableEq, Repr

/-- `BTNonLeafNode::insertAndSplit`.  After the iterators are advanced `half` times,
`*keyIt` and `*pageIt` are read and erased (undefined at `end()`), `length` is
decremented, the loop moves the rest, and the sibling gets the current `lastId`
before `lastId` becomes `midPid`. -/
def insertAndSplit (n : BTNonLeafNode) (key : Int) (pid : Int)
    (sibling : BTNonLeafNode) (midKey : Int) : Option SplitResult :=
  if n.length < (MAX_KEYS : Int) then
    some { rc := RC.RC_INVALID_PID, node := n, sibling := sibling, midKey := midKey }
  else
    match insertWithoutCheck n key pid with
    | none => none
    | some (_, n1) =>
      if half ≤ n1.keys.length ∧ half ≤ n1.pages.length then
        match n1.keys.drop half, n1.pages.drop half with
        | mid :: ks, midPid :: ps =>
          match splitLoop ks ps (n1.length - 1) sibling with
          | none => none
          | some (rest, len, sib) =>
            some { rc := RC.ok
                   node := { n1 with keys := n1.keys.take half
                                     pages := n1.pages.take half ++ rest
                                     length := len
                                     lastId := midPid }
                   sibling := sib.setLastId n1.lastId
                   midKey := mid }
        | _, _ => none
      else none

/-- The loop of `BTNonLeafNode::locateChildPtr` over the keys from `keyIt` and the
pages from `pageIt` on; the result is the value written to `pid`.  Reading or
advancing `pageIt` at `pages.end()` is undefined. -/
def locateChildLoop (searchKey : Int) (lastId : Int) : List Int → List Int → Option Int
  | [], _ => some lastId
  | k :: ks, p :: ps => if searchKey < k then some p else locateChildLoop searchKey lastId ks ps
  | _ :: _, [] => none

/-- `BTNonLeafNode::locateChildPtr`; the result carries the output parameter `pid`,
which every returning path writes. -/
def locateChildPtr (n : BTNonLeafNode) (searchKey : Int) : Option (RC × Int) :=
  match locateChildLoop searchKey n.lastId n.keys n.pages with
  | none => none
  | some pid => some (RC.ok, pid)

/-- `BTNonLeafNode::initializeRoot`. -/
def initializeRoot (n : BTNonLeafNode) (pid1 : Int) (key : Int) (pid2 : Int) :
    RC × BTNonLeafNode :=
  (RC.ok, { n with pages := [pid1], keys := [key], isLeaf := 0, length := 1, lastId := pid2 })

/-- A non-leaf node whose `length` is the number of stored keys and of stored pages. -/
def WF (n : BTNonLeafNode) : Prop :=
  (n.keys.length : Int) = n.length ∧ n.pages.length = n.keys.length

instance (n : BTNonLeafNode) : Decidable n.WF := by unfold WF; infer_instance

end BTNonLeafNode

/-! ## Page format -/

/-- Modelled from the spec: the four bytes `memcpy` moves for an `int`.  The page
format stores 32-bit integers in the byte order of the platform; the bytes are the
two's-complement value, least significant byte first. -/
def encodeInt32 (x : Int) : List Nat :=
  let u := (x % 4294967296).toNat
  [u % 256, u / 256 % 256, u / 65536 % 256, u / 16777216 % 256]

/-- Modelled from the spec: the `int` that four bytes hold, inverse to `encodeInt32`. -/
def decodeInt32 (bs : List Nat) : Int :=
  match bs with
  | [b0, b1, b2, b3] =>
    let u := b0 + 256 * b1 + 65536 * b2 + 16777216 * b3
    if u < 2147483648 then (u : Int) else (u : Int) - 4294967296
  | _ => 0

/-- The eight bytes of a `RecordId`: the field `pid`, then the field `sid`. -/
def encodeRecordId (r : RecordId) : List Nat := encodeInt32 r.pid ++ encodeInt32 r.sid

/-- The `RecordId` that eight bytes hold. -/
def decodeRecordId (bs : List Nat) : RecordId :=
  { pid := decodeInt32 (bs.take 4), sid := decodeInt32 (bs.drop 4) }

/-- The values an `int` can hold. -/
def isInt32 (x : Int) : Prop := -2147483648 ≤ x ∧ x < 2147483648

instance (x : Int) : Decidable (isInt32 x) := by unfold isInt32; infer_instance

/-- `memcpy(buffer + off, src, sizeof src)`: undefined when it runs past the buffer. -/
def memcpyTo (buffer : List Nat) (off : Nat) (src : List Nat) : Option (List Nat) :=
  if off + src.length ≤ buffer.length then
    some (buffer.take off ++ src ++ buffer.drop (off + src.length))
  else none

/-- `memcpy(dst, buffer + off, len)`: undefined when it runs past the buffer. -/
def memcpyFrom (buffer : List Nat) (off : Nat) (len : Nat) : Option (List Nat) :=
  if off + len ≤ buffer.length then some ((buffer.drop off).take len) else none

namespace BTLeafNode

/-- The `for (int i = 0; i < length; i++)` loop of `BTLeafNode::write`: the rounds
left, the lists from `recIt` and `keyIt` on, the buffer and `bufferIndex`.
Dereferencing an iterator at `end()` is undefined. -/
def writeLoop : Nat → List RecordId → List Int → List Nat → Nat → Option (List Nat × Nat)
  | 0, _, _, buffer, bufferIndex => some (buffer, bufferIndex)
  | i + 1, r :: rs, k :: ks, buffer, bufferIndex =>
    match memcpyTo buffer bufferIndex (encodeRecordId r) with
    | none => none
    | some b1 =>
      match memcpyTo b1 (bufferIndex + 8) (encodeInt32 k) with
      | none => none
      | some b2 => writeLoop i rs ks b2 (bufferIndex + 8 + 4)
  | _ + 1, _, _, _, _ => none

/-- `BTLeafNode::write` up to the call of `pf.write`: the result is the page buffer
of `pageSize = PageFile::PAGE_SIZE` bytes handed to the page store (which is
taken to report success). -/
def write (n : BTLeafNode) (pageSize : Nat) : Option (RC × List Nat) :=
  match memcpyTo (List.replicate pageSize 0) 0 (encodeInt32 n.isLeaf) with
  | none => none
  | some b1 =>
    match memcpyTo b1 4 (encodeInt32 n.length) with
    | none => none
    | some b2 =>
      match writeLoop n.length.toNat n.records n.keys b2 8 with
      | none => none
      | some (b3, bufferIndex) =>
        match memcpyTo b3 bufferIndex (encodeInt32 n.nextLeaf) with
        | none => none
        | some b4 => some (RC.ok, b4)

/-- The `for (int i = 0; i < length; i++)` loop of `BTLeafNode::read`: the rounds left,
the buffer, `bufferIndex` and the lists `records` and `keys` being appended to. -/
def readLoop : Nat → List Nat → Nat → List RecordId → List Int →
    Option (List RecordId × List Int × Nat)
  | 0, _, bufferIndex, records, keys => some (records, keys, bufferIndex)
  | i + 1, buffer, bufferIndex, records, keys =>
    match memcpyFrom buffer bufferIndex 8, memcpyFrom buffer (bufferIndex + 8) 4 with
    | some rb, some kb =>
      readLoop i buffer (bufferIndex + 8 + 4)
        (records ++ [decodeRecordId rb]) (keys ++ [decodeInt32 kb])
    | _, _ => none

/-- `BTLeafNode::read` from the call of `pf.read` on: `page` is the content the page
store delivered into `buffer` (the page store is taken to report success). -/
def read (n : BTLeafNode) (page : List Nat) : Option (RC × BTLeafNode) :=
  match memcpyFrom page 0 4, memcpyFrom page 4 4 with
  | some a, some b =>
    match readLoop (decodeInt32 b).toNat page 8 n.records n.keys with
    | none => none
    | some (records, keys, bufferIndex) =>
      match memcpyFrom page bufferIndex 4 with
      | none => none
      | some c =>
        some (RC.ok,
          { n with isLeaf := decodeInt32 a, length := decodeInt32 b,
                   records := records, keys := keys, nextLeaf := decodeInt32 c })
  | _, _ => none

end BTLeafNode

namespace BTNonLeafNode

/-- The `for` loop of `BTNonLeafNode::write`: the rounds left, the lists from `pageIt`
and `keyIt` on, the buffer and `bufferIndex`. -/
def writeLoop : Nat → List Int → List Int → List Nat → Nat → Option (List Nat × Nat)
  | 0, _, _, buffer, bufferIndex => some (buffer, bufferIndex)
  | i + 1, p :: ps, k :: ks, buffer, bufferIndex =>
    match memcpyTo buffer bufferIndex (encodeInt32 p) with
    | none => none
    | some b1 =>
      match memcpyTo b1 (bufferIndex + 4) (encodeInt32 k) with
      | none => none
      | some b2 => writeLoop i ps ks b2 (bufferIndex + 4 + 4)
  | _ + 1, _, _, _, _ => none

/-- `BTNonLeafNode::write` up to the call of `pf.write`. -/
def write (n : BTNonLeafNode) (pageSize : Nat) : Option (RC × List Nat) :=
  match memcpyTo (List.replicate pageSize 0) 0 (encodeInt32 n.isLeaf) with
  | none => none
  | some b1 =>
    match memcpyTo b1 4 (encodeInt32 n.length) with
    | none => none
    | some b2 =>
      match writeLoop n.length.toNat n.pages n.keys b2 8 with
      | none => none
      | some (b3, bufferIndex) =>
        match memcpyTo b3 bufferIndex (encodeInt32 n.lastId) with
        | none => none
        | some b4 => some (RC.ok, b4)

/-- The `for` loop of `BTNonLeafNode::read`. -/
def readLoop : Nat → List Nat → Nat → List Int → List Int →
    Option (List Int × List Int × Nat)
  | 0, _, bufferIndex, pages, keys => some (pages, keys, bufferIndex)
  | i + 1, buffer, bufferIndex, pages, keys =>
    match memcpyFrom buffer bufferIndex 4, memcpyFrom buffer (bufferIndex + 4) 4 with
    | some pb, some kb =>
      readLoop i buffer (bufferIndex + 4 + 4)
        (pages ++ [decodeInt32 pb]) (keys ++ [decodeInt32 kb])
    | _, _ => none

/-- `BTNonLeafNode::read` from the call of `pf.read` on. -/
def read (n : BTNonLeafNode) (page : List Nat) : Option (RC × BTNonLeafNode) :=
  match memcpyFrom page 0 4, memcpyFrom page 4 4 with
  | some a, some b =>
    match readLoop (decodeInt32 b).toNat page 8 n.pages n.keys with
    | none => none
    | some (pages, keys, bufferIndex) =>
      match memcpyFrom page bufferIndex 4 with
      | none => none
      | some c =>
        some (RC.ok,
          { n with isLeaf := decodeInt32 a, length := decodeInt32 b,
                   pages := pages, keys := keys, lastId := decodeInt32 c })
  | _, _ => none

end BTNonLeafNode

/-! ## Page layout -/

/-- The bytes of the entries of a leaf page, entry after entry. -/
def leafEntryBytes : List RecordId → List Int → List Nat
  | r :: rs, k :: ks => encodeRecordId r ++ encodeInt32 k ++ leafEntryBytes rs ks
  | _, _ => []

/-- The bytes of the entries of a non-leaf page, entry after entry. -/
def nonLeafEntryBytes : List Int → List Int → List Nat
  | p :: ps, k :: ks => encodeInt32 p ++ encodeInt32 k ++ nonLeafEntryBytes ps ks
  | _, _ => []

/-- The leaf page of the page buffer format: the header (`isLeaf`, `length`), the
entries in node order, the next-leaf pointer, zero padding up to `pageSize`. -/
def leafPage (n : BTLeafNode) (pageSize : Nat) : List Nat :=
  encodeInt32 n.isLeaf ++ (encodeInt32 n.length ++ (leafEntryBytes n.records n.keys
    ++ (encodeInt32 n.nextLeaf ++ List.replicate (pageSize - (12 + 12 * n.keys.length)) 0)))

/-- The non-leaf page of the page buffer format: the header (`isLeaf`, `length`), the
entries in node order, the last pointer, zero padding up to `pageSize`. -/
def nonLeafPage (n : BTNonLeafNode) (pageSize : Nat) : List Nat :=
  encodeInt32 n.isLeaf ++ (encodeInt32 n.length ++ (nonLeafEntryBytes n.pages n.keys
    ++ (encodeInt32 n.lastId ++ List.replicate (pageSize - (12 + 8 * n.keys.length)) 0)))

/-- The ordered insertion as the specification words it: scan from the smallest
key, find the first entry whose key is not less than the new key, and put the
new entry immediately before it (at the end if there is none). -/
def specOrderedInsert (key : Int) (rid : RecordId) :
    List (Int × RecordId) → List (Int × RecordId)
  | [] => [(key, rid)]
  | e :: es => if e.1 < key then e :: specOrderedInsert key rid es else (key, rid) :: e :: es

/-- The placement of `BTNonLeafNode` insertion as the specification words it: with
`i` the index of the first stored key not less than `key`, if there is no such key
the key is appended, the old last pointer becomes its pointer and `child` the new
last pointer; otherwise the key goes to index `i`, `child` to index `i + 1` of the
pointers, and the last pointer stays.  The result is (keys, pointers, last pointer). -/
def specInternalInsert (ks ps : List Int) (last key child : Int) :
    List Int × List Int × Int :=
  let i := ks.findIdx (fun k => decide (¬ k < key))
  if i = ks.length then (ks ++ [key], ps ++ [last], child)
  else (ks.take i ++ key :: ks.drop i, ps.take (i + 1) ++ child :: ps.drop (i + 1), last)

/-! ## Sequences of calls -/

/-- A sequence of `BTLeafNode::insert` calls on one node object, in order.  The result
is the node after the last call and the number of calls that returned `0`. -/
def BTLeafNode.insertCalls : BTLeafNode → List (Int × RecordId) → Option (BTLeafNode × Nat)
  | n, [] => some (n, 0)
  | n, (key, rid) :: rest =>
    match n.insert key rid with
    | none => none
    | some (rc, n1) =>
      match BTLeafNode.insertCalls n1 rest with
      | none => none
      | some (n2, c) => some (n2, if rc = RC.ok then c + 1 else c)

/-- A sequence of `BTNonLeafNode::insert` calls on one node object, in order.  The
result is the node after the last call and the number of calls that returned `0`. -/
def BTNonLeafNode.insertCalls : BTNonLeafNode → List (Int × Int) → Option (BTNonLeafNode × Nat)
  | n, [] => some (n, 0)
  | n, (key, pid) :: rest =>
    match n.insert key pid with
    | none => none
    | some (rc, n1) =>
      match BTNonLeafNode.insertCalls n1 rest with
      | none => none
      | some (n2, c) => some (n2, if rc = RC.ok then c + 1 else c)

/-! ## Example nodes -/

/-- The keys `1, 2, ..., 75`. -/
def keys1to75 : List Int := (List.range 75).map (fun (i : Nat) => (i : Int) + 1)

/-- A full leaf with the keys `1..75`, each with its own record identifier. -/
def exampleLeaf75 : BTLeafNode :=
  { isLeaf := 1, length := 75, id := 7, nextLeaf := -1, keys := keys1to75,
    records := (List.range 75).map (fun (i : Nat) => { pid := (i : Int), sid := 2 * (i : Int) }) }

/-- A full non-leaf node with the keys `1..75`, the child pointers `500..574` and
the last pointer `100`. -/
def exampleNonLeaf75 : BTNonLeafNode :=
  { isLeaf := 0, length := 75, id := 7, lastId := 100, keys := keys1to75,
    pages := (List.range 75).map (fun (i : Nat) => (i : Int) + 500) }

/-- A leaf with the keys `10, 20, 30`. -/
def exampleLeaf3 : BTLeafNode :=
  { isLeaf := 1, length := 3, id := 7, nextLeaf := -1, keys := [10, 20, 30],
    records := [{ pid := 1, sid := 1 }, { pid := 2, sid := 2 }, { pid := 3, sid := 3 }] }

/-- A non-leaf node with the keys `10, 20`, the pointers `1, 2` and the last pointer `3`. -/
def exampleNonLeaf2 : BTNonLeafNode :=
  { isLeaf := 0, length := 2, id := 7, lastId := 3, keys := [10, 20], pages := [1, 2] }

/-- A leaf with the single key `5` and next-leaf pointer `8`. -/
def exampleLeaf1 : BTLeafNode :=
  { isLeaf := 1, length := 1, id := 6, nextLeaf := 8, keys := [5],
    records := [{ pid := 4, sid := 4 }] }

/-! ## Lemmas on the ordered insertion -/

theorem scanIndex_le (key : Int) (ks : List Int) : scanIndex key ks ≤ ks.length := by
  induction ks with
  | nil => simp [scanIndex]
  | cons k ks ih =>
    simp only [scanIndex]
    split
    · simpa using ih
    · simp

theorem listInsert_length {α : Type} (l : List α) (i : Nat) (x : α) (h : i ≤ l.length) :
    (listInsert l i x).length = l.length + 1 := by
  simp [listInsert]; omega

theorem zip_take {α β : Type} (l : List α) (m : List β) (i : Nat) :
    (l.zip m).take i = (l.take i).zip (m.take i) := by
  simp only [List.zip_eq_zipWith, List.take_zipWith]

theorem zip_drop {α β : Type} (l : List α) (m : List β) (i : Nat) :
    (l.zip m).drop i = (l.drop i).zip (m.drop i) := by
  simp only [List.zip_eq_zipWith, List.drop_zipWith]

theorem listInsert_zip {α β : Type} (l : List α) (m : List β) (i : Nat) (x : α) (y : β)
    (h : m.length = l.length) :
    (listInsert l i x).zip (listInsert m i y) = listInsert (l.zip m) i (x, y) := by
  unfold listInsert
  rw [zip_take, zip_drop, ← List.zip_cons_cons, List.zip_append (by simp [h])]

theorem scanIndex_take_lt (key : Int) (ks : List Int) :
    ∀ k ∈ ks.take (scanIndex key ks), k < key := by
  induction ks with
  | nil => simp
  | cons k ks ih =>
    simp only [scanIndex]
    split
    · intro a ha
      simp only [List.take_succ_cons, List.mem_cons] at ha
      rcases ha with rfl | ha
      · assumption
      · exact ih a ha
    · simp

theorem scanIndex_drop_head (key : Int) (ks : List Int) :
    ∀ k ∈ (ks.drop (scanIndex key ks)).head?, key ≤ k := by
  induction ks with
  | nil => simp
  | cons k ks ih =>
    simp only [scanIndex]
    split
    · simpa using ih
    · intro a ha
      simp at ha
      omega

theorem specOrderedInsert_eq (key : Int) (rid : RecordId) (ks : List Int) :
    ∀ rs : List RecordId, rs.length = ks.length →
      specOrderedInsert key rid (ks.zip rs)
        = listInsert (ks.zip rs) (scanIndex key ks) (key, rid) := by
  induction ks with
  | nil => intro rs h; simp [specOrderedInsert, listInsert, scanIndex]
  | cons k ks ih =>
    intro rs h
    cases rs with
    | nil => simp at h
    | cons r rs =>
      simp only [List.length_cons, add_left_inj] at h
      have hz : (k :: ks).zip (r :: rs) = (k, r) :: ks.zip rs := rfl
      rw [hz]
      simp only [specOrderedInsert, scanIndex]
      split
      · rw [ih rs h]; simp [listInsert]
      · simp [listInsert]

theorem listInsert_scan_sorted (key : Int) (ks : List Int) (hs : ks.Sorted (· ≤ ·)) :
    (listInsert ks (scanIndex key ks) key).Sorted (· ≤ ·) := by
  induction ks with
  | nil => simp [listInsert, scanIndex]
  | cons k ks ih =>
    have hs' := List.sorted_cons.mp hs
    simp only [scanIndex]
    split
    · rename_i hlt
      have : listInsert (k :: ks) (scanIndex key ks + 1) key
          = k :: listInsert ks (scanIndex key ks) key := by simp [listInsert]
      rw [this]
      refine List.sorted_cons.mpr ⟨?_, ih hs'.2⟩
      intro b hb
      simp only [listInsert, List.mem_append, List.mem_cons] at hb
      rcases hb with hb | rfl | hb
      · exact hs'.1 b (List.mem_of_mem_take hb)
      · omega
      · exact hs'.1 b (List.mem_of_mem_drop hb)
    · rename_i hge
      have : listInsert (k :: ks) 0 key = key :: k :: ks := by simp [listInsert]
      rw [this]
      refine List.sorted_cons.mpr ⟨?_, hs⟩
      intro b hb
      simp only [List.mem_cons] at hb
      rcases hb with rfl | hb
      · omega
      · have := hs'.1 b hb
        omega

theorem leaf_splitLoop_eq (ks : List Int) :
    ∀ (rs : List RecordId) (len : Int) (sib : BTLeafNode), rs.length = ks.length →
      BTLeafNode.splitLoop ks rs len sib
        = some ([], len - ks.length,
            { sib with keys := sib.keys ++ ks, records := sib.records ++ rs,
                       length := sib.length + ks.length }) := by
  induction ks with
  | nil =>
    intro rs len sib h
    have : rs = [] := List.length_eq_zero.mp (by simpa using h)
    subst this
    simp [BTLeafNode.splitLoop]
  | cons k ks ih =>
    intro rs len sib h
    cases rs with
    | nil => simp at h
    | cons r rs =>
      simp only [List.length_cons, add_left_inj] at h
      simp only [BTLeafNode.splitLoop, ih rs _ _ h, BTLeafNode.insert_end]
      simp only [List.length_cons, Nat.cast_add, Nat.cast_one, List.append_assoc,
        List.singleton_append, Option.some.injEq, Prod.mk.injEq, true_and]
      constructor
      · omega
      · congr 1; omega

theorem leaf_insertWithoutCheck_eq (n : BTLeafNode) (key : Int) (rid : RecordId)
    (hr : n.records.length = n.keys.length) :
    n.insertWithoutCheck key rid = some (RC.ok,
      { n with keys := listInsert n.keys (scanIndex key n.keys) key
               records := listInsert n.records (scanIndex key n.keys) rid
               length := n.length + 1 }) := by
  have hle := scanIndex_le key n.keys
  have hidx : scanIndex key n.keys ≤ n.records.length := by omega
  simp only [BTLeafNode.insertWithoutCheck, if_pos hidx]

theorem leaf_insertAndSplit_eq (n : BTLeafNode) (key : Int) (rid : RecordId)
    (sibling : BTLeafNode) (siblingKey : Int)
    (hwf : n.WF) (hlen : n.length = 75) (hsib : sibling.WF) :
    ∃ k : Int,
      (sibling.keys ++ (listInsert n.keys (scanIndex key n.keys) key).drop 38)[0]? = some k ∧
      n.insertAndSplit key rid sibling siblingKey = some
        { rc := RC.ok
          node := { n with keys := (listInsert n.keys (scanIndex key n.keys) key).take 38
                           records := (listInsert n.records (scanIndex key n.keys) rid).take 38
                           length := 38
                           nextLeaf := sibling.id }
          sibling := { sibling with
                         keys := sibling.keys
                           ++ (listInsert n.keys (scanIndex key n.keys) key).drop 38
                         records := sibling.records
                           ++ (listInsert n.records (scanIndex key n.keys) rid).drop 38
                         length := sibling.length + 38
                         nextLeaf := n.nextLeaf }
          siblingKey := k } := by
  obtain ⟨hk, hr⟩ := hwf
  obtain ⟨hsk, hsr⟩ := hsib
  have hle := scanIndex_le key n.keys
  have hKl : (listInsert n.keys (scanIndex key n.keys) key).length = 76 := by
    rw [listInsert_length _ _ _ hle]; omega
  have hRl : (listInsert n.records (scanIndex key n.keys) rid).length = 76 := by
    rw [listInsert_length _ _ _ (by omega)]; omega
  have hnot : ¬ (n.length < (MAX_KEYS : Int)) := by simp [MAX_KEYS]; omega
  have hdl : ((listInsert n.records (scanIndex key n.keys) rid).drop 38).length
      = ((listInsert n.keys (scanIndex key n.keys) key).drop 38).length := by
    simp [hKl, hRl]
  have hdk : ((listInsert n.keys (scanIndex key n.keys) key).drop 38).length = 38 := by
    simp [hKl]
  have hhalf : half = 38 := rfl
  have hne : ∀ {α : Type} (l m : List α), m.length = 38 → ∃ x, (l ++ m)[0]? = some x := by
    intro α l m hm
    have : 0 < (l ++ m).length := by simp [hm]
    exact ⟨(l ++ m)[0], List.getElem?_eq_getElem this⟩
  obtain ⟨k, hk0⟩ := hne sibling.keys _ hdk
  obtain ⟨r, hr0⟩ := hne sibling.records _ (hdl.trans hdk)
  refine ⟨k, hk0, ?_⟩
  have hcond : ¬ ((0 : Int) ≥ sibling.length + ((38 : Nat) : Int) ∨ (0 : Int) < 0) := by
    omega
  simp only [BTLeafNode.insertAndSplit, if_neg hnot, leaf_insertWithoutCheck_eq n key rid hr,
    hhalf, hKl, hRl, leaf_splitLoop_eq _ _ _ _ hdl, hdk, BTLeafNode.setNextNodePtr,
    BTLeafNode.getPageId, BTLeafNode.readEntry, if_neg hcond, Int.toNat_zero, hk0, hr0]
  simp [hlen]

/-! ## Leaf `insert` -/

/-- C1: for a leaf with fewer than 75 entries (its `length` counting its keys and
records) whose keys are in non-decreasing order, `insert` returns success; the new
entry sequence is the old one with `(key, rid)` put immediately before the first
old entry whose key is not less than `key` (at the end if there is none), which
is the ordered insertion of the specification; the old entries keep their order
and pairing, the keys are still non-decreasing and `length` grows by one. -/
theorem leaf_insert_ordered (n : BTLeafNode) (key : Int) (rid : RecordId)
    (hwf : n.WF) (hlen : n.length < 75) (hs : n.keys.Sorted (· ≤ ·)) :
    ∃ n1 : BTLeafNode, n.insert key rid = some (RC.ok, n1) ∧
      n1.entries = specOrderedInsert key rid n.entries ∧
      (∃ i : Nat, i ≤ n.entries.length ∧
        (∀ e ∈ n.entries.take i, e.1 < key) ∧
        (∀ e ∈ (n.entries.drop i).head?, key ≤ e.1) ∧
        n1.entries = n.entries.take i ++ (key, rid) :: n.entries.drop i) ∧
      n1.keys.Sorted (· ≤ ·) ∧
      n1.length = n.length + 1 ∧ n1.WF ∧ n1.entries.length = n.entries.length + 1 ∧
      n1.nextLeaf = n.nextLeaf ∧ n1.id = n.id := by
  obtain ⟨hk, hr⟩ := hwf
  have hle := scanIndex_le key n.keys
  have hnot : ¬ (n.length ≥ (MAX_KEYS : Int)) := by simp [MAX_KEYS]; omega
  have hidx : scanIndex key n.keys ≤ n.records.length := by omega
  refine ⟨{ n with
      keys := listInsert n.keys (scanIndex key n.keys) key
      records := listInsert n.records (scanIndex key n.keys) rid
      length := n.length + 1 },
    by simp only [BTLeafNode.insert, BTLeafNode.insertWithoutCheck, if_neg hnot, if_pos hidx],
    ?_, ?_, ?_, rfl, ?_, ?_, rfl, rfl⟩
  · simp only [BTLeafNode.entries]
    rw [listInsert_zip _ _ _ _ _ hr, specOrderedInsert_eq key rid n.keys n.records hr]
  · refine ⟨scanIndex key n.keys, ?_, ?_, ?_, ?_⟩
    · simp [BTLeafNode.entries, hr]; exact hle
    · intro e he
      simp only [BTLeafNode.entries, zip_take] at he
      exact scanIndex_take_lt key n.keys e.1 (List.of_mem_zip he).1
    · intro e he
      simp only [BTLeafNode.entries, zip_drop] at he
      have h1 : e ∈ (n.keys.drop (scanIndex key n.keys)).zip
          (n.records.drop (scanIndex key n.keys)) := List.mem_of_mem_head? he
      cases hd : n.keys.drop (scanIndex key n.keys) with
      | nil => rw [hd] at he; simp at he
      | cons a as =>
        cases hd2 : n.records.drop (scanIndex key n.keys) with
        | nil => rw [hd2] at he; simp at he
        | cons b bs =>
          rw [hd, hd2] at he
          simp at he
          have := scanIndex_drop_head key n.keys a (by rw [hd]; simp)
          rw [← he]; exact this
    · simp only [BTLeafNode.entries]
      rw [listInsert_zip _ _ _ _ _ hr]; rfl
  · exact listInsert_scan_sorted key n.keys hs
  · constructor
    · simp only [listInsert_length _ _ _ hle]; push_cast; omega
    · simp only [listInsert_length _ _ _ hle, listInsert_length _ _ _ hidx]; omega
  · simp only [BTLeafNode.entries, List.length_zip, listInsert_length _ _ _ hle,
      listInsert_length _ _ _ hidx]
    omega

/-! ## Leaf `insertAndSplit` -/

/-- C2: for a leaf with exactly 75 entries in non-decreasing key order and a freshly
constructed sibling, `insertAndSplit` succeeds; with `E` the 76 entries of the
ordered insertion of `(key, rid)`, this node is left with exactly `E[0..38)` and
length 38, the sibling holds exactly `E[38..76)` and length 38, and the returned
separator is the key of `E[38]`, the first key of the sibling. -/
theorem leaf_insertAndSplit_distributes (n : BTLeafNode) (key : Int) (rid : RecordId)
    (sid : Int) (siblingKey : Int)
    (hwf : n.WF) (hlen : n.length = 75) (hs : n.keys.Sorted (· ≤ ·)) :
    ∃ r : BTLeafNode.SplitResult,
      n.insertAndSplit key rid (BTLeafNode.create sid) siblingKey = some r ∧
      r.rc = RC.ok ∧
      (specOrderedInsert key rid n.entries).length = 76 ∧
      r.node.entries = (specOrderedInsert key rid n.entries).take 38 ∧
      r.node.length = 38 ∧ r.node.WF ∧
      r.sibling.entries = (specOrderedInsert key rid n.entries).drop 38 ∧
      r.sibling.length = 38 ∧ r.sibling.WF ∧
      ((specOrderedInsert key rid n.entries).map Prod.fst)[38]? = some r.siblingKey ∧
      r.sibling.keys.head? = some r.siblingKey ∧
      r.node.keys.Sorted (· ≤ ·) ∧ r.sibling.keys.Sorted (· ≤ ·) := by
  obtain ⟨k, hk0, heq⟩ := leaf_insertAndSplit_eq n key rid (BTLeafNode.create sid) siblingKey
    hwf hlen (by simp [BTLeafNode.WF, BTLeafNode.create])
  obtain ⟨hk, hr⟩ := hwf
  have hle := scanIndex_le key n.keys
  have hKl : (listInsert n.keys (scanIndex key n.keys) key).length = 76 := by
    rw [listInsert_length _ _ _ hle]; omega
  have hRl : (listInsert n.records (scanIndex key n.keys) rid).length = 76 := by
    rw [listInsert_length _ _ _ (by omega)]; omega
  have hE : specOrderedInsert key rid n.entries
      = (listInsert n.keys (scanIndex key n.keys) key).zip
          (listInsert n.records (scanIndex key n.keys) rid) := by
    simp only [BTLeafNode.entries]
    rw [listInsert_zip _ _ _ _ _ hr, specOrderedInsert_eq key rid n.keys n.records hr]
  have hsK := listInsert_scan_sorted key n.keys hs
  simp only [BTLeafNode.create, List.nil_append] at hk0 heq
  refine ⟨_, heq, rfl, ?_, ?_, rfl, ?_, ?_, ?_, ?_, ?_, ?_, ?_, ?_⟩
  · rw [hE]; simp [hKl, hRl]
  · rw [hE, zip_take]; rfl
  · simp [BTLeafNode.WF, hKl, hRl]
  · rw [hE, zip_drop]; rfl
  · simp
  · simp [BTLeafNode.WF, hKl, hRl]
  · rw [hE, List.map_fst_zip _ _ (by omega)]
    simpa using hk0
  · simpa [List.head?_eq_getElem?] using hk0
  · exact hsK.sublist (List.take_sublist _ _)
  · exact hsK.sublist (List.drop_sublist _ _)

/-! ## Non-leaf insertion and split lemmas -/

theorem scanIndex_eq_findIdx (key : Int) (ks : List Int) :
    scanIndex key ks = ks.findIdx (fun k => decide (¬ k < key)) := by
  induction ks with
  | nil => simp [scanIndex]
  | cons k ks ih =>
    simp only [scanIndex, List.findIdx_cons, ih]
    by_cases h : k < key <;> simp [h]

theorem scanIndex_eq_length_iff (key : Int) (ks : List Int) :
    scanIndex key ks = ks.length ↔ ∀ k ∈ ks, k < key := by
  induction ks with
  | nil => simp [scanIndex]
  | cons k ks ih =>
    simp only [scanIndex, List.length_cons, List.mem_cons, forall_eq_or_imp]
    by_cases h : k < key
    · simp [h, ih]
    · simp [h]

theorem nonleaf_insertWithoutCheck_eq (n : BTNonLeafNode) (key pid : Int)
    (hp : n.pages.length = n.keys.length) :
    ∃ n1 : BTNonLeafNode, n.insertWithoutCheck key pid = some (RC.ok, n1) ∧
      (n1.keys, n1.pages, n1.lastId) = specInternalInsert n.keys n.pages n.lastId key pid ∧
      n1.keys = listInsert n.keys (scanIndex key n.keys) key ∧
      n1.pages ++ [n1.lastId]
        = listInsert (n.pages ++ [n.lastId]) (scanIndex key n.keys + 1) pid ∧
      n1.keys.length = n.keys.length + 1 ∧ n1.pages.length = n.pages.length + 1 ∧
      n1.length = n.length + 1 ∧ n1.id = n.id ∧ n1.isLeaf = n.isLeaf := by
  have hle := scanIndex_le key n.keys
  by_cases h : scanIndex key n.keys = n.keys.length
  · refine ⟨{ n with keys := n.keys ++ [key], pages := n.pages ++ [n.lastId], lastId := pid,
                     length := n.length + 1 }, ?_, ?_, ?_, ?_, ?_, ?_, rfl, rfl, rfl⟩
    · simp only [BTNonLeafNode.insertWithoutCheck, if_pos h]
    · simp only [specInternalInsert, ← scanIndex_eq_findIdx, if_pos h]
    · simp [listInsert, h]
    · have ht : (n.pages ++ [n.lastId]).length ≤ n.keys.length + 1 := by simp [hp]
      simp only [listInsert, h, List.take_of_length_le ht, List.drop_of_length_le ht]
    · simp
    · simp
  · have h2 : scanIndex key n.keys + 1 ≤ n.pages.length := by omega
    refine ⟨{ n with keys := listInsert n.keys (scanIndex key n.keys) key,
                     pages := listInsert n.pages (scanIndex key n.keys + 1) pid,
                     length := n.length + 1 }, ?_, ?_, rfl, ?_, ?_, ?_, rfl, rfl, rfl⟩
    · simp only [BTNonLeafNode.insertWithoutCheck, if_neg h, if_pos h2]
    · simp only [specInternalInsert, ← scanIndex_eq_findIdx, if_neg h]; rfl
    · simp only [listInsert]
      rw [List.take_append_of_le_length h2, List.drop_append_of_le_length h2]
      simp
    · exact listInsert_length _ _ _ hle
    · exact listInsert_length _ _ _ h2

theorem nonleaf_splitLoop_eq (ks : List Int) :
    ∀ (ps : List Int) (len : Int) (sib : BTNonLeafNode), ps.length = ks.length →
      BTNonLeafNode.splitLoop ks ps len sib
        = some ([], len - ks.length,
            { sib with keys := sib.keys ++ ks, pages := sib.pages ++ ps,
                       length := sib.length + ks.length }) := by
  induction ks with
  | nil =>
    intro ps len sib h
    have : ps = [] := List.length_eq_zero.mp (by simpa using h)
    subst this
    simp [BTNonLeafNode.splitLoop]
  | cons k ks ih =>
    intro ps len sib h
    cases ps with
    | nil => simp at h
    | cons p ps =>
      simp only [List.length_cons, add_left_inj] at h
      simp only [BTNonLeafNode.splitLoop, ih ps _ _ h, BTNonLeafNode.insert_end]
      simp only [List.length_cons, Nat.cast_add, Nat.cast_one, List.append_assoc,
        List.singleton_append, Option.some.injEq, Prod.mk.injEq, true_and]
      constructor
      · omega
      · congr 1; omega

theorem nonleaf_insertAndSplit_eq (n n1 : BTNonLeafNode) (key pid : Int)
    (sibling : BTNonLeafNode) (midKey : Int)
    (hlen : n.length = 75)
    (h1 : n.insertWithoutCheck key pid = some (RC.ok, n1))
    (hK : n1.keys.length = 76) (hP : n1.pages.length = 76) (hL : n1.length = 76) :
    ∃ mid midPid : Int, n1.keys[38]? = some mid ∧ n1.pages[38]? = some midPid ∧
      n.insertAndSplit key pid sibling midKey = some
        { rc := RC.ok
          node := { n1 with keys := n1.keys.take 38, pages := n1.pages.take 38,
                            length := 38, lastId := midPid }
          sibling := { sibling with keys := sibling.keys ++ n1.keys.drop 39
                                    pages := sibling.pages ++ n1.pages.drop 39
                                    length := sibling.length + 37
                                    lastId := n1.lastId }
          midKey := mid } := by
  have hnot : ¬ (n.length < (MAX_KEYS : Int)) := by simp [MAX_KEYS]; omega
  have hhalf : half = 38 := rfl
  have hk38 : 38 < n1.keys.length := by omega
  have hp38 : 38 < n1.pages.length := by omega
  refine ⟨n1.keys[38], n1.pages[38], List.getElem?_eq_getElem hk38,
    List.getElem?_eq_getElem hp38, ?_⟩
  have hdl : (n1.pages.drop 39).length = (n1.keys.drop 39).length := by simp [hK, hP]
  have hdk : (n1.keys.drop 39).length = 37 := by simp [hK]
  have hc : (38 ≤ 76 ∧ 38 ≤ 76) := by omega
  simp only [BTNonLeafNode.insertAndSplit, if_neg hnot, h1, hhalf, hK, hP, if_pos hc,
    List.drop_eq_getElem_cons hk38, List.drop_eq_getElem_cons hp38,
    nonleaf_splitLoop_eq _ _ _ _ hdl, hdk, BTNonLeafNode.setLastId, hL]
  simp

theorem nonleaf_insertWithoutCheck_cases (n n1 : BTNonLeafNode) (key pid : Int)
    (h1 : n.insertWithoutCheck key pid = some (RC.ok, n1)) :
    (scanIndex key n.keys = n.keys.length →
      n1.pages = n.pages ++ [n.lastId] ∧ n1.lastId = pid) ∧
    (scanIndex key n.keys < n.keys.length →
      n1.pages = listInsert n.pages (scanIndex key n.keys + 1) pid ∧ n1.lastId = n.lastId) := by
  unfold BTNonLeafNode.insertWithoutCheck at h1
  by_cases h : scanIndex key n.keys = n.keys.length
  · simp only [if_pos h, Option.some.injEq, Prod.mk.injEq, true_and] at h1
    subst h1
    exact ⟨fun _ => ⟨rfl, rfl⟩, fun hlt => absurd h (by omega)⟩
  · simp only [if_neg h] at h1
    by_cases h2 : scanIndex key n.keys + 1 ≤ n.pages.length
    · simp only [if_pos h2, Option.some.injEq, Prod.mk.injEq, true_and] at h1
      subst h1
      exact ⟨fun he => absurd he h, fun _ => ⟨rfl, rfl⟩⟩
    · simp [if_neg h2] at h1

theorem locateChildLoop_spec (searchKey last : Int) (ks : List Int) :
    ∀ ps : List Int, ps.length = ks.length →
      ∃ out : Int, BTNonLeafNode.locateChildLoop searchKey last ks ps = some out ∧
        ((∃ (i : Nat) (k : Int), ks[i]? = some k ∧ searchKey < k ∧
            (∀ k1 ∈ ks.take i, ¬ searchKey < k1) ∧ ps[i]? = some out) ∨
          ((∀ k ∈ ks, ¬ searchKey < k) ∧ out = last)) := by
  induction ks with
  | nil =>
    intro ps _
    exact ⟨last, by simp [BTNonLeafNode.locateChildLoop], Or.inr ⟨by simp, rfl⟩⟩
  | cons k ks ih =>
    intro ps h
    cases ps with
    | nil => simp at h
    | cons p ps =>
      simp only [List.length_cons, add_left_inj] at h
      by_cases hlt : searchKey < k
      · refine ⟨p, by simp [BTNonLeafNode.locateChildLoop, hlt], Or.inl ⟨0, k, ?_⟩⟩
        simp [hlt]
      · obtain ⟨out, ho, hcase⟩ := ih ps h
        refine ⟨out, by simp [BTNonLeafNode.locateChildLoop, hlt, ho], ?_⟩
        rcases hcase with ⟨i, k1, hk1, hs1, hall, hp1⟩ | ⟨hall, hout⟩
        · refine Or.inl ⟨i + 1, k1, by simpa using hk1, hs1, ?_, by simpa using hp1⟩
          intro k2 hk2
          simp only [List.take_succ_cons, List.mem_cons] at hk2
          rcases hk2 with rfl | hk2
          · exact hlt
          · exact hall k2 hk2
        · refine Or.inr ⟨?_, hout⟩
          intro k2 hk2
          simp only [List.mem_cons] at hk2
          rcases hk2 with rfl | hk2
          · exact hlt
          · exact hall k2 hk2

/-! ## Non-leaf `insertAndSplit` -/

/-- C3 (as amended): for a non-leaf node with exactly 75 entries in non-decreasing
key order and an empty sibling, `insertAndSplit` succeeds; with `K` and `P` the 76
keys and 76 child pointers the ordered insertion produces, the returned `midKey` is
`K[38]`, this node keeps the keys `K[0..38)` with the pointers `P[0..38)` and
length 38, its new last pointer is `P[38]`, the sibling receives `K[39..76)` with
`P[39..76)` and length 37.  The entry at position 38 is removed, not copied:
together the two entry lists are `K` and `P` with position 38 erased.  As values,
`midKey` occurs in neither key list when `K` has no repeated key, and `P[38]` in
neither pointer list when `P` has no repeated pointer. -/
theorem nonleaf_insertAndSplit_middle (n : BTNonLeafNode) (key pid : Int)
    (sid slast : Int) (midKey : Int)
    (hwf : n.WF) (hlen : n.length = 75) (hs : n.keys.Sorted (· ≤ ·)) :
    ∃ (n1 : BTNonLeafNode) (r : BTNonLeafNode.SplitResult),
      n.insertWithoutCheck key pid = some (RC.ok, n1) ∧
      (n1.keys, n1.pages, n1.lastId) = specInternalInsert n.keys n.pages n.lastId key pid ∧
      n1.keys.length = 76 ∧ n1.pages.length = 76 ∧ n1.keys.Sorted (· ≤ ·) ∧
      n.insertAndSplit key pid (BTNonLeafNode.create sid slast) midKey = some r ∧
      r.rc = RC.ok ∧
      n1.keys[38]? = some r.midKey ∧
      r.node.keys = n1.keys.take 38 ∧ r.node.pages = n1.pages.take 38 ∧
      r.node.length = 38 ∧
      n1.pages[38]? = some r.node.lastId ∧
      r.sibling.keys = n1.keys.drop 39 ∧ r.sibling.pages = n1.pages.drop 39 ∧
      r.sibling.length = 37 ∧
      r.node.keys ++ r.sibling.keys = n1.keys.eraseIdx 38 ∧
      r.node.pages ++ r.sibling.pages = n1.pages.eraseIdx 38 ∧
      (n1.keys.Nodup → r.midKey ∉ r.node.keys ∧ r.midKey ∉ r.sibling.keys) ∧
      (n1.pages.Nodup → r.node.lastId ∉ r.node.pages ∧ r.node.lastId ∉ r.sibling.pages) := by
  obtain ⟨hk, hp⟩ := hwf
  obtain ⟨n1, h1, hspec, hkeys, _, hK, hP, hL, _, _⟩ :=
    nonleaf_insertWithoutCheck_eq n key pid hp
  have hK76 : n1.keys.length = 76 := by omega
  have hP76 : n1.pages.length = 76 := by omega
  obtain ⟨mid, midPid, hmid, hmidPid, heq⟩ :=
    nonleaf_insertAndSplit_eq n n1 key pid (BTNonLeafNode.create sid slast) midKey hlen h1
      hK76 hP76 (by omega)
  simp only [BTNonLeafNode.create, List.nil_append, zero_add] at heq
  have hsplit : ∀ (l : List Int) (x : Int), l[38]? = some x →
      l = l.take 38 ++ x :: l.drop 39 := by
    intro l x hx
    obtain ⟨hlt, hget⟩ := List.getElem?_eq_some.mp hx
    conv_lhs => rw [← List.take_append_drop 38 l, List.drop_eq_getElem_cons hlt, hget]
  have hnd : ∀ (l : List Int) (x : Int), l[38]? = some x → l.Nodup →
      x ∉ l.take 38 ∧ x ∉ l.drop 39 := by
    intro l x hx hn
    rw [hsplit l x hx] at hn
    have h2 := List.nodup_middle.mp hn
    have h3 := (List.nodup_cons.mp h2).1
    simp only [List.mem_append, not_or] at h3
    exact h3
  refine ⟨n1, _, h1, hspec, hK76, hP76, ?_, heq, rfl, hmid, rfl, rfl, rfl, hmidPid, rfl, rfl,
    rfl, ?_, ?_, hnd _ _ hmid, hnd _ _ hmidPid⟩
  · rw [hkeys]; exact listInsert_scan_sorted key n.keys hs
  · exact (List.eraseIdx_eq_take_drop_succ _ _).symm
  · exact (List.eraseIdx_eq_take_drop_succ _ _).symm

/-- C4 (as amended): after a successful non-leaf `insertAndSplit` on a node with 75
entries and an empty sibling, the sibling's last pointer is the last pointer this
node has after the ordered insertion: the old last pointer when some stored key is
not less than `key`, and the inserted child pointer when `key` is greater than every
stored key. -/
theorem nonleaf_insertAndSplit_sibling_last (n : BTNonLeafNode) (key pid : Int)
    (sid slast : Int) (midKey : Int) (hwf : n.WF) (hlen : n.length = 75) :
    ∃ r : BTNonLeafNode.SplitResult,
      n.insertAndSplit key pid (BTNonLeafNode.create sid slast) midKey = some r ∧
      r.rc = RC.ok ∧
      ((∃ k ∈ n.keys, ¬ k < key) → r.sibling.lastId = n.lastId) ∧
      ((∀ k ∈ n.keys, k < key) → r.sibling.lastId = pid) ∧
      (∀ n1 : BTNonLeafNode, n.insertWithoutCheck key pid = some (RC.ok, n1) →
        r.sibling.lastId = n1.lastId) := by
  obtain ⟨hk, hp⟩ := hwf
  obtain ⟨n1, h1, _, _, _, hK, hP, hL, _, _⟩ := nonleaf_insertWithoutCheck_eq n key pid hp
  obtain ⟨mid, midPid, _, _, heq⟩ :=
    nonleaf_insertAndSplit_eq n n1 key pid (BTNonLeafNode.create sid slast) midKey hlen h1
      (by omega) (by omega) (by omega)
  obtain ⟨hc1, hc2⟩ := nonleaf_insertWithoutCheck_cases n n1 key pid h1
  have hle := scanIndex_le key n.keys
  refine ⟨_, heq, rfl, ?_, ?_, ?_⟩
  · rintro ⟨k, hkm, hkn⟩
    have hne : scanIndex key n.keys ≠ n.keys.length := by
      intro he
      exact hkn ((scanIndex_eq_length_iff key n.keys).mp he k hkm)
    exact (hc2 (by omega)).2
  · intro hall
    exact (hc1 ((scanIndex_eq_length_iff key n.keys).mpr hall)).2
  · intro n2 h2
    rw [h1] at h2
    simp only [Option.some.injEq, Prod.mk.injEq, true_and] at h2
    rw [h2]

set_option maxRecDepth 100000 in
/-- C4, the scenario of the claim: keys `1..75` with last pointer `100`, inserting key
`76` with child `200`: the split succeeds and the sibling's last pointer is `200`,
the inserted child, not the last pointer `100` the node had before the call. -/
theorem nonleaf_insertAndSplit_sibling_last_counterexample :
    ∃ r : BTNonLeafNode.SplitResult,
      exampleNonLeaf75.insertAndSplit 76 200 (BTNonLeafNode.create 9 0) 0 = some r ∧
      r.rc = RC.ok ∧ exampleNonLeaf75.lastId = 100 ∧ r.sibling.lastId = 200 ∧
      r.sibling.lastId ≠ exampleNonLeaf75.lastId :=
  ⟨_, rfl, rfl, rfl, rfl, by decide⟩

/-! ## Non-leaf `locateChildPtr` and `insert` -/

/-- C7: for a non-leaf node with at least one entry (as many pointers as keys),
`locateChildPtr` returns success and outputs the pointer `p_i` of the smallest `i`
with `searchKey < k_i`, or the last pointer when no stored key is strictly greater
than `searchKey`. -/
theorem nonleaf_locateChildPtr_routing (n : BTNonLeafNode) (searchKey : Int)
    (hwf : n.WF) (hne : 1 ≤ n.length) :
    ∃ out : Int, n.locateChildPtr searchKey = some (RC.ok, out) ∧
      n.keys ≠ [] ∧
      ((∃ (i : Nat) (k : Int), n.keys[i]? = some k ∧ searchKey < k ∧
          (∀ k1 ∈ n.keys.take i, ¬ searchKey < k1) ∧ n.pages[i]? = some out) ∨
        ((∀ k ∈ n.keys, ¬ searchKey < k) ∧ out = n.lastId)) := by
  obtain ⟨hk, hp⟩ := hwf
  obtain ⟨out, ho, hcase⟩ := locateChildLoop_spec searchKey n.lastId n.keys n.pages hp
  refine ⟨out, by simp [BTNonLeafNode.locateChildPtr, ho], ?_, hcase⟩
  intro he
  rw [he] at hk
  simp at hk
  omega

/-- C7, the example of the claim: keys `10, 20` with pointers `1, 2` and last pointer
`3` route `5` to `1`, `10` and `15` to `2`, and `25` to the last pointer. -/
theorem nonleaf_locateChildPtr_routing_witness :
    exampleNonLeaf2.WF ∧ 1 ≤ exampleNonLeaf2.length ∧
    (∃ out : Int, exampleNonLeaf2.locateChildPtr 15 = some (RC.ok, out) ∧
      exampleNonLeaf2.keys ≠ [] ∧
      ((∃ (i : Nat) (k : Int), exampleNonLeaf2.keys[i]? = some k ∧ 15 < k ∧
          (∀ k1 ∈ exampleNonLeaf2.keys.take i, ¬ 15 < k1) ∧
          exampleNonLeaf2.pages[i]? = some out) ∨
        ((∀ k ∈ exampleNonLeaf2.keys, ¬ 15 < k) ∧ out = exampleNonLeaf2.lastId))) ∧
    exampleNonLeaf2.locateChildPtr 5 = some (RC.ok, 1) ∧
    exampleNonLeaf2.locateChildPtr 10 = some (RC.ok, 2) ∧
    exampleNonLeaf2.locateChildPtr 15 = some (RC.ok, 2) ∧
    exampleNonLeaf2.locateChildPtr 25 = some (RC.ok, 3) :=
  ⟨by decide, by decide,
    nonleaf_locateChildPtr_routing exampleNonLeaf2 15 (by decide) (by decide),
    by decide, by decide, by decide, by decide⟩

/-- C8: for a non-leaf node with fewer than 75 entries in non-decreasing key order,
`insert` succeeds and `length` grows by one.  With `i` the index of the first stored
key not less than `key`: if there is none, the key is appended, the old last pointer
becomes its pointer and `pid` the new last pointer; otherwise the key is inserted at
index `i`, `pid` at index `i + 1` of the pointers, and the last pointer is unchanged.
In both cases the child sequence `pages ++ [last]` gains `pid` at index `i + 1`. -/
theorem nonleaf_insert_placement (n : BTNonLeafNode) (key pid : Int)
    (hwf : n.WF) (hlen : n.length < 75) (hs : n.keys.Sorted (· ≤ ·)) :
    ∃ n1 : BTNonLeafNode, n.insert key pid = some (RC.ok, n1) ∧
      n1.length = n.length + 1 ∧ n1.WF ∧
      (n1.keys, n1.pages, n1.lastId) = specInternalInsert n.keys n.pages n.lastId key pid ∧
      (∃ i : Nat, i ≤ n.keys.length ∧
        (∀ k ∈ n.keys.take i, k < key) ∧
        (∀ k ∈ (n.keys.drop i).head?, ¬ k < key) ∧
        n1.keys = n.keys.take i ++ key :: n.keys.drop i ∧
        (i = n.keys.length →
          n1.keys = n.keys ++ [key] ∧ n1.pages = n.pages ++ [n.lastId] ∧ n1.lastId = pid) ∧
        (i < n.keys.length →
          n1.pages = n.pages.take (i + 1) ++ pid :: n.pages.drop (i + 1) ∧
          n1.lastId = n.lastId) ∧
        n1.pages ++ [n1.lastId]
          = (n.pages ++ [n.lastId]).take (i + 1) ++ pid :: (n.pages ++ [n.lastId]).drop (i + 1)) ∧
      n1.keys.Sorted (· ≤ ·) := by
  obtain ⟨hk, hp⟩ := hwf
  obtain ⟨n1, h1, hspec, hkeys, hchild, hK, hP, hL, _, _⟩ :=
    nonleaf_insertWithoutCheck_eq n key pid hp
  obtain ⟨hc1, hc2⟩ := nonleaf_insertWithoutCheck_cases n n1 key pid h1
  have hnot : ¬ (n.length ≥ (MAX_KEYS : Int)) := by simp [MAX_KEYS]; omega
  refine ⟨n1, by simp only [BTNonLeafNode.insert, if_neg hnot, h1], hL, ⟨by omega, by omega⟩,
    hspec, ⟨scanIndex key n.keys, scanIndex_le key n.keys, scanIndex_take_lt key n.keys, ?_,
      hkeys, ?_, hc2, hchild⟩, ?_⟩
  · intro k hkm
    have := scanIndex_drop_head key n.keys k hkm
    omega
  · intro he
    refine ⟨?_, hc1 he⟩
    rw [hkeys, he]
    simp [listInsert]
  · rw [hkeys]; exact listInsert_scan_sorted key n.keys hs

/-- C8 at the node with keys `10, 20`, pointers `1, 2` and last pointer `3`:
inserting `(25, 9)` appends, inserting `(5, 9)` and `(20, 9)` insert in place. -/
theorem nonleaf_insert_placement_witness :
    exampleNonLeaf2.WF ∧ exampleNonLeaf2.length < 75 ∧
    exampleNonLeaf2.keys.Sorted (· ≤ ·) ∧
    (∃ n1 : BTNonLeafNode, exampleNonLeaf2.insert 25 9 = some (RC.ok, n1) ∧
      n1.length = exampleNonLeaf2.length + 1 ∧ n1.WF ∧
      (n1.keys, n1.pages, n1.lastId)
        = specInternalInsert exampleNonLeaf2.keys exampleNonLeaf2.pages
            exampleNonLeaf2.lastId 25 9) ∧
    exampleNonLeaf2.insert 25 9
      = some (RC.ok, { exampleNonLeaf2 with length := 3, keys := [10, 20, 25],
                                            pages := [1, 2, 3], lastId := 9 }) ∧
    exampleNonLeaf2.insert 5 9
      = some (RC.ok, { exampleNonLeaf2 with length := 3, keys := [5, 10, 20],
                                            pages := [1, 9, 2], lastId := 3 }) ∧
    exampleNonLeaf2.insert 20 9
      = some (RC.ok, { exampleNonLeaf2 with length := 3, keys := [10, 20, 20],
                                            pages := [1, 2, 9], lastId := 3 }) := by
  obtain ⟨n1, h1, h2, h3, h4, _⟩ :=
    nonleaf_insert_placement exampleNonLeaf2 25 9 (by decide) (by decide) (by decide)
  exact ⟨by decide, by decide, by decide, ⟨n1, h1, h2, h3, h4⟩, by decide, by decide, by decide⟩

/-! ## Instances of the insertion and split theorems -/

/-- C1 at the leaf with keys `10, 20, 30`: inserting key `20` puts the new entry
before the stored entry with key `20`. -/
theorem leaf_insert_ordered_witness :
    exampleLeaf3.WF ∧ exampleLeaf3.length < 75 ∧ exampleLeaf3.keys.Sorted (· ≤ ·) ∧
    (∃ n1 : BTLeafNode, exampleLeaf3.insert 20 { pid := 9, sid := 9 } = some (RC.ok, n1) ∧
      n1.entries = specOrderedInsert 20 { pid := 9, sid := 9 } exampleLeaf3.entries ∧
      n1.keys.Sorted (· ≤ ·) ∧ n1.length = exampleLeaf3.length + 1) ∧
    exampleLeaf3.insert 20 { pid := 9, sid := 9 }
      = some (RC.ok, { exampleLeaf3 with
          length := 4, keys := [10, 20, 20, 30],
          records := [{ pid := 1, sid := 1 }, { pid := 9, sid := 9 }, { pid := 2, sid := 2 },
            { pid := 3, sid := 3 }] }) := by
  obtain ⟨n1, h1, h2, _, h4, h5, _⟩ :=
    leaf_insert_ordered exampleLeaf3 20 { pid := 9, sid := 9 } (by decide) (by decide)
      (by decide)
  exact ⟨by decide, by decide, by decide, ⟨n1, h1, h2, h4, h5⟩, by decide⟩

set_option maxRecDepth 100000 in
/-- C2, the scenario of the claim: a leaf with keys `1..75`, inserting key `76` with a
fresh sibling on page `9`: this node keeps the keys `1..38`, the sibling gets
`39..76`, both lengths are 38 and the separator is `39`. -/
theorem leaf_insertAndSplit_distributes_witness :
    exampleLeaf75.WF ∧ exampleLeaf75.length = 75 ∧ exampleLeaf75.keys.Sorted (· ≤ ·) ∧
    (∃ r : BTLeafNode.SplitResult,
      exampleLeaf75.insertAndSplit 76 { pid := 1000, sid := 1 } (BTLeafNode.create 9) 0
        = some r ∧
      r.rc = RC.ok ∧
      r.node.entries
        = (specOrderedInsert 76 { pid := 1000, sid := 1 } exampleLeaf75.entries).take 38 ∧
      r.sibling.entries
        = (specOrderedInsert 76 { pid := 1000, sid := 1 } exampleLeaf75.entries).drop 38 ∧
      r.node.keys = (List.range 38).map (fun (i : Nat) => (i : Int) + 1) ∧
      r.sibling.keys = (List.range 38).map (fun (i : Nat) => (i : Int) + 39) ∧
      r.node.length = 38 ∧ r.sibling.length = 38 ∧ r.siblingKey = 39 ∧
      r.node.nextLeaf = 9) := by
  obtain ⟨r, h1, h2, _, h4, _, _, h7, _⟩ :=
    leaf_insertAndSplit_distributes exampleLeaf75 76 { pid := 1000, sid := 1 } 9 0
      (by decide) (by decide) (by decide)
  have hev : ∃ r0 : BTLeafNode.SplitResult,
      exampleLeaf75.insertAndSplit 76 { pid := 1000, sid := 1 } (BTLeafNode.create 9) 0
        = some r0 ∧
      r0.node.keys = (List.range 38).map (fun (i : Nat) => (i : Int) + 1) ∧
      r0.sibling.keys = (List.range 38).map (fun (i : Nat) => (i : Int) + 39) ∧
      r0.node.length = 38 ∧ r0.sibling.length = 38 ∧ r0.siblingKey = 39 ∧
      r0.node.nextLeaf = 9 := ⟨_, rfl, rfl, rfl, rfl, rfl, rfl, rfl⟩
  obtain ⟨r0, e0, g1, g2, g3, g4, g5, g6⟩ := hev
  have hr : r0 = r := Option.some.inj (e0.symm.trans h1)
  subst hr
  exact ⟨by decide, by decide, by decide, r0, h1, h2, h4, h7, g1, g2, g3, g4, g5, g6⟩

set_option maxRecDepth 100000 in
/-- C3, the scenario of the claim: a non-leaf node with keys `1..75`, pointers
`500..574` and last pointer `100`, inserting key `76` with child `200`: `midKey` is
`39`, this node keeps the keys `1..38` and gets the last pointer `538` that was
paired with `39`, and the sibling gets the 37 keys `40..76`. -/
theorem nonleaf_insertAndSplit_middle_witness :
    exampleNonLeaf75.WF ∧ exampleNonLeaf75.length = 75 ∧
    exampleNonLeaf75.keys.Sorted (· ≤ ·) ∧
    (∃ (n1 : BTNonLeafNode) (r : BTNonLeafNode.SplitResult),
      exampleNonLeaf75.insertWithoutCheck 76 200 = some (RC.ok, n1) ∧
      exampleNonLeaf75.insertAndSplit 76 200 (BTNonLeafNode.create 9 0) 0 = some r ∧
      r.rc = RC.ok ∧ n1.keys[38]? = some r.midKey ∧
      r.node.keys = n1.keys.take 38 ∧ r.node.pages = n1.pages.take 38 ∧
      r.sibling.keys = n1.keys.drop 39 ∧ r.sibling.pages = n1.pages.drop 39 ∧
      r.midKey = 39 ∧ r.node.length = 38 ∧ r.sibling.length = 37 ∧
      r.node.keys = (List.range 38).map (fun (i : Nat) => (i : Int) + 1) ∧
      r.sibling.keys = (List.range 37).map (fun (i : Nat) => (i : Int) + 40) ∧
      r.node.lastId = 538) := by
  obtain ⟨n1, r, h1, _, _, _, _, h6, h7, h8, h9, h10, _, _, h13, h14, _⟩ :=
    nonleaf_insertAndSplit_middle exampleNonLeaf75 76 200 9 0 0
      (by decide) (by decide) (by decide)
  have hev : ∃ r0 : BTNonLeafNode.SplitResult,
      exampleNonLeaf75.insertAndSplit 76 200 (BTNonLeafNode.create 9 0) 0 = some r0 ∧
      r0.midKey = 39 ∧ r0.node.length = 38 ∧ r0.sibling.length = 37 ∧
      r0.node.keys = (List.range 38).map (fun (i : Nat) => (i : Int) + 1) ∧
      r0.sibling.keys = (List.range 37).map (fun (i : Nat) => (i : Int) + 40) ∧
      r0.node.lastId = 538 := ⟨_, rfl, rfl, rfl, rfl, rfl, rfl, rfl⟩
  obtain ⟨r0, e0, g1, g2, g3, g4, g5, g6⟩ := hev
  have hr : r0 = r := Option.some.inj (e0.symm.trans h6)
  subst hr
  exact ⟨by decide, by decide, by decide, n1, r0, h1, h6, h7, h8, h9, h10, h13, h14,
    g1, g2, g3, g4, g5, g6⟩

set_option maxRecDepth 100000 in
/-- C4 (as amended) at two inputs on the node with keys `1..75` and last pointer `100`:
for key `76`, greater than every stored key, the sibling's last pointer is the
inserted child `200`; for key `0` it is the old last pointer `100`. -/
theorem nonleaf_insertAndSplit_sibling_last_witness :
    exampleNonLeaf75.WF ∧ exampleNonLeaf75.length = 75 ∧
    (∃ r : BTNonLeafNode.SplitResult,
      exampleNonLeaf75.insertAndSplit 76 200 (BTNonLeafNode.create 9 0) 0 = some r ∧
      r.rc = RC.ok ∧ r.sibling.lastId = 200) ∧
    (∃ r : BTNonLeafNode.SplitResult,
      exampleNonLeaf75.insertAndSplit 0 200 (BTNonLeafNode.create 9 0) 0 = some r ∧
      r.rc = RC.ok ∧ r.sibling.lastId = exampleNonLeaf75.lastId) := by
  obtain ⟨r, h1, h2, _, h4, _⟩ :=
    nonleaf_insertAndSplit_sibling_last exampleNonLeaf75 76 200 9 0 0 (by decide) (by decide)
  obtain ⟨r2, k1, k2, k3, _, _⟩ :=
    nonleaf_insertAndSplit_sibling_last exampleNonLeaf75 0 200 9 0 0 (by decide) (by decide)
  refine ⟨by decide, by decide, ⟨r, h1, h2, h4 ?_⟩, ⟨r2, k1, k2, k3 ⟨1, ?_, ?_⟩⟩⟩
  · decide
  · decide
  · decide

/-! ## Leaf `locate` -/

theorem sorted_cons_lt_not_mem (s k : Int) (ks : List Int) (hs : (k :: ks).Sorted (· ≤ ·))
    (hlt : s < k) : ∀ x ∈ k :: ks, s < x := by
  intro x hx
  simp only [List.mem_cons] at hx
  rcases hx with rfl | hx
  · exact hlt
  · have := (List.sorted_cons.mp hs).1 x hx
    omega

theorem countP_eq_zero_of_lt (s : Int) (ks : List Int) (h : ∀ x ∈ ks, s < x) :
    ks.countP (fun k => decide (k < s)) = 0 := by
  rw [List.countP_eq_zero]
  intro x hx
  have := h x hx
  simp only [decide_eq_true_eq]
  omega

theorem locateLoop_not_found (s : Int) (ks : List Int) :
    ∀ eid : Int, ks.Sorted (· ≤ ·) → s ∉ ks →
      ((∃ k ∈ ks, s < k) →
        BTLeafNode.locateLoop s ks eid
          = (RC.RC_NO_SUCH_RECORD, eid + (ks.countP (fun k => decide (k < s)) : Nat))) ∧
      ((∀ k ∈ ks, k < s) →
        BTLeafNode.locateLoop s ks eid = (RC.RC_NO_SUCH_RECORD, eid + (ks.length : Nat) - 1)) := by
  induction ks with
  | nil =>
    intro eid _ _
    refine ⟨fun h => ?_, fun _ => ?_⟩
    · obtain ⟨k, hk, _⟩ := h
      simp at hk
    · simp [BTLeafNode.locateLoop]
  | cons k ks ih =>
    intro eid hs hnot
    have hne : ¬ s = k := fun h => hnot (by simp [h])
    have hnot2 : s ∉ ks := fun h => hnot (List.mem_cons_of_mem _ h)
    have hs2 := (List.sorted_cons.mp hs).2
    by_cases hlt : s < k
    · refine ⟨fun _ => ?_, fun hall => ?_⟩
      · have hz := countP_eq_zero_of_lt s (k :: ks) (sorted_cons_lt_not_mem s k ks hs hlt)
        simp only [BTLeafNode.locateLoop, if_neg hne, if_pos hlt, hz]
        simp
      · have := hall k (by simp)
        omega
    · obtain ⟨ih1, ih2⟩ := ih (eid + 1) hs2 hnot2
      have hkl : k < s := by omega
      have hc : (k :: ks).countP (fun k => decide (k < s))
          = ks.countP (fun k => decide (k < s)) + 1 := by
        simp [List.countP_cons, hkl]
      refine ⟨fun hex => ?_, fun hall => ?_⟩
      · have hex2 : ∃ k1 ∈ ks, s < k1 := by
          obtain ⟨k1, hk1, hs1⟩ := hex
          simp only [List.mem_cons] at hk1
          rcases hk1 with rfl | hk1
          · omega
          · exact ⟨k1, hk1, hs1⟩
        simp only [BTLeafNode.locateLoop, if_neg hne, if_neg hlt, ih1 hex2, hc]
        simp only [Nat.cast_add, Nat.cast_one, Prod.mk.injEq, true_and]
        omega
      · have hall2 : ∀ k1 ∈ ks, k1 < s := fun k1 hk1 => hall k1 (List.mem_cons_of_mem _ hk1)
        simp only [BTLeafNode.locateLoop, if_neg hne, if_neg hlt, ih2 hall2]
        simp only [List.length_cons, Nat.cast_add, Nat.cast_one, Prod.mk.injEq, true_and]
        omega

/-- C5: what `locate` does for a search key that equals no stored key, on a non-empty
leaf with keys in non-decreasing order.  It reports not-found.  When some stored key
is greater than the search key, the index is the number of stored keys strictly
less than it.  When every stored key is less than the search key, the index is one
less than that number: the position of the last entry, because of the `eid--` after
the loop, not the position immediately after it. -/
theorem leaf_locate_not_found_index (n : BTLeafNode) (searchKey : Int)
    (hne : n.keys ≠ []) (hs : n.keys.Sorted (· ≤ ·)) (hnot : searchKey ∉ n.keys) :
    ((∃ k ∈ n.keys, searchKey < k) →
      n.locate searchKey = some (RC.RC_NO_SUCH_RECORD,
        ((n.keys.countP (fun k => decide (k < searchKey)) : Nat) : Int))) ∧
    ((∀ k ∈ n.keys, k < searchKey) →
      n.keys.countP (fun k => decide (k < searchKey)) = n.keys.length ∧
      n.locate searchKey = some (RC.RC_NO_SUCH_RECORD,
        ((n.keys.countP (fun k => decide (k < searchKey)) : Nat) : Int) - 1)) := by
  cases hk : n.keys with
  | nil => exact absurd hk hne
  | cons k ks =>
    rw [hk] at hs hnot
    obtain ⟨h1, h2⟩ := locateLoop_not_found searchKey (k :: ks) 0 hs hnot
    refine ⟨fun hex => ?_, fun hall => ?_⟩
    · by_cases hlt : searchKey < k
      · have hz := countP_eq_zero_of_lt searchKey (k :: ks)
          (sorted_cons_lt_not_mem searchKey k ks hs hlt)
        simp only [BTLeafNode.locate, hk, if_pos hlt, hz]
        simp
      · simp only [BTLeafNode.locate, hk, if_neg hlt, h1 hex]
        simp
    · have hlt : ¬ searchKey < k := by
        have := hall k (by simp)
        omega
      have hc : (k :: ks).countP (fun k => decide (k < searchKey)) = (k :: ks).length := by
        rw [List.countP_eq_length]
        intro x hx
        simpa using hall x hx
      refine ⟨hc, ?_⟩
      simp only [BTLeafNode.locate, hk, if_neg hlt, h2 hall, hc]
      simp

/-- C5 at the leaf with keys `10, 20, 30` and search key `35`: all three stored keys
are less than `35`, and `locate` reports not-found with index `2`, not `3`. -/
theorem leaf_locate_not_found_index_witness :
    exampleLeaf3.keys ≠ [] ∧ exampleLeaf3.keys.Sorted (· ≤ ·) ∧ 35 ∉ exampleLeaf3.keys ∧
    (∀ k ∈ exampleLeaf3.keys, k < 35) ∧
    exampleLeaf3.keys.countP (fun k => decide (k < 35)) = 3 ∧
    exampleLeaf3.locate 35 = some (RC.RC_NO_SUCH_RECORD, 2) := by
  have h := (leaf_locate_not_found_index exampleLeaf3 35 (by decide) (by decide)
    (by decide)).2 (by decide)
  exact ⟨by decide, by decide, by decide, by decide, by decide, h.2⟩

theorem locateLoop_exact (s : Int) (ks : List Int) :
    ∀ eid : Int, ks.Sorted (· ≤ ·) →
      ((BTLeafNode.locateLoop s ks eid).1 = RC.ok ↔ s ∈ ks) ∧
      ((BTLeafNode.locateLoop s ks eid).1 = RC.ok →
        eid ≤ (BTLeafNode.locateLoop s ks eid).2 ∧
        (BTLeafNode.locateLoop s ks eid).2 < eid + (ks.length : Nat) ∧
        ks[((BTLeafNode.locateLoop s ks eid).2 - eid).toNat]? = some s) ∧
      ((BTLeafNode.locateLoop s ks eid).1 ≠ RC.ok →
        (BTLeafNode.locateLoop s ks eid).1 = RC.RC_NO_SUCH_RECORD) := by
  induction ks with
  | nil => intro eid _; simp [BTLeafNode.locateLoop]
  | cons k ks ih =>
    intro eid hs
    have hs2 := (List.sorted_cons.mp hs).2
    by_cases he : s = k
    · subst he
      simp [BTLeafNode.locateLoop]
    · by_cases hlt : s < k
      · have hnm : s ∉ k :: ks := by
          intro hm
          have := sorted_cons_lt_not_mem s k ks hs hlt s hm
          omega
        simp [BTLeafNode.locateLoop, he, hlt, hnm]
      · obtain ⟨i1, i2, i3⟩ := ih (eid + 1) hs2
        simp only [BTLeafNode.locateLoop, if_neg he, if_neg hlt]
        refine ⟨?_, ?_, i3⟩
        · rw [i1]; simp [he]
        · intro hok
          obtain ⟨j1, j2, j3⟩ := i2 hok
          refine ⟨by omega, by simp only [List.length_cons, Nat.cast_add, Nat.cast_one]; omega, ?_⟩
          have : ((BTLeafNode.locateLoop s ks (eid + 1)).2 - eid).toNat
              = ((BTLeafNode.locateLoop s ks (eid + 1)).2 - (eid + 1)).toNat + 1 := by omega
          rw [this]
          simpa using j3

/-- C6: for a non-empty leaf with keys in non-decreasing order, `locate` returns
success exactly when some stored key equals the search key; on success the index is
in `[0, length)` and the key stored there is the search key; otherwise the return
code is `RC_NO_SUCH_RECORD`. -/
theorem leaf_locate_exact_match (n : BTLeafNode) (searchKey : Int)
    (hwf : n.WF) (hne : 1 ≤ n.length) (hs : n.keys.Sorted (· ≤ ·)) :
    ∃ (rc : RC) (eid : Int), n.locate searchKey = some (rc, eid) ∧
      (rc = RC.ok ↔ searchKey ∈ n.keys) ∧
      (rc = RC.ok → 0 ≤ eid ∧ eid < n.length ∧ n.keys[eid.toNat]? = some searchKey) ∧
      (rc ≠ RC.ok → rc = RC.RC_NO_SUCH_RECORD) := by
  obtain ⟨hk, _⟩ := hwf
  cases hkeys : n.keys with
  | nil => rw [hkeys] at hk; simp at hk; omega
  | cons k ks =>
    rw [hkeys] at hs hk
    by_cases hlt : searchKey < k
    · have hnm : searchKey ∉ k :: ks := by
        intro hm
        have := sorted_cons_lt_not_mem searchKey k ks hs hlt searchKey hm
        omega
      refine ⟨RC.RC_NO_SUCH_RECORD, 0, by simp [BTLeafNode.locate, hkeys, hlt], ?_, ?_, ?_⟩
      · simp [hnm]
      · simp
      · simp
    · obtain ⟨i1, i2, i3⟩ := locateLoop_exact searchKey (k :: ks) 0 hs
      refine ⟨(BTLeafNode.locateLoop searchKey (k :: ks) 0).1,
        (BTLeafNode.locateLoop searchKey (k :: ks) 0).2,
        by simp [BTLeafNode.locate, hkeys, hlt], i1, ?_, i3⟩
      intro hok
      obtain ⟨j1, j2, j3⟩ := i2 hok
      refine ⟨j1, by omega, by simpa using j3⟩

/-- C6, the example of the claim: for the keys `10, 20, 30`, `locate(20)` gives index
`1` and success, while `locate(15)`, `locate(5)` and `locate(35)` report not-found. -/
theorem leaf_locate_exact_match_witness :
    exampleLeaf3.WF ∧ 1 ≤ exampleLeaf3.length ∧ exampleLeaf3.keys.Sorted (· ≤ ·) ∧
    (∃ (rc : RC) (eid : Int), exampleLeaf3.locate 20 = some (rc, eid) ∧
      (rc = RC.ok ↔ 20 ∈ exampleLeaf3.keys) ∧
      (rc = RC.ok → 0 ≤ eid ∧ eid < exampleLeaf3.length ∧
        exampleLeaf3.keys[eid.toNat]? = some 20) ∧
      (rc ≠ RC.ok → rc = RC.RC_NO_SUCH_RECORD)) ∧
    exampleLeaf3.locate 20 = some (RC.ok, 1) ∧
    (exampleLeaf3.locate 15).map Prod.fst = some RC.RC_NO_SUCH_RECORD ∧
    (exampleLeaf3.locate 5).map Prod.fst = some RC.RC_NO_SUCH_RECORD ∧
    (exampleLeaf3.locate 35).map Prod.fst = some RC.RC_NO_SUCH_RECORD :=
  ⟨by decide, by decide, by decide,
    leaf_locate_exact_match exampleLeaf3 20 (by decide) (by decide) (by decide),
    by decide, by decide, by decide, by decide⟩

/-! ## Page format lemmas -/

theorem encodeInt32_length (x : Int) : (encodeInt32 x).length = 4 := by
  simp [encodeInt32]

theorem encodeRecordId_length (r : RecordId) : (encodeRecordId r).length = 8 := by
  simp [encodeRecordId, encodeInt32_length]

theorem decode_encodeInt32 (x : Int) (h : isInt32 x) : decodeInt32 (encodeInt32 x) = x := by
  obtain ⟨h1, h2⟩ := h
  simp only [encodeInt32, decodeInt32]
  generalize hu : (x % 4294967296).toNat = u
  have hlt : u < 4294967296 := by omega
  have hsum : u % 256 + 256 * (u / 256 % 256) + 65536 * (u / 65536 % 256)
      + 16777216 * (u / 16777216 % 256) = u := by omega
  rw [hsum]
  split <;> omega

theorem decode_encodeRecordId (r : RecordId) (h : isInt32 r.pid ∧ isInt32 r.sid) :
    decodeRecordId (encodeRecordId r) = r := by
  have h4 : (encodeInt32 r.pid).length = 4 := encodeInt32_length _
  simp only [decodeRecordId, encodeRecordId]
  rw [List.take_left' h4, List.drop_left' h4, decode_encodeInt32 _ h.1,
    decode_encodeInt32 _ h.2]

theorem memcpyTo_zeros (front src : List Nat) (m off : Nat) (hoff : off = front.length)
    (hm : src.length ≤ m) :
    memcpyTo (front ++ List.replicate m 0) off src
      = some (front ++ src ++ List.replicate (m - src.length) 0) := by
  subst hoff
  have hc : front.length + src.length ≤ (front ++ List.replicate m 0).length := by
    simp; omega
  simp only [memcpyTo, if_pos hc, List.take_left, Option.some.injEq]
  rw [List.drop_append_eq_append_drop]
  simp [List.drop_eq_nil_of_le]

theorem memcpyFrom_mid (front src rest : List Nat) (off len : Nat)
    (hoff : off = front.length) (hlen : len = src.length) :
    memcpyFrom (front ++ (src ++ rest)) off len = some src := by
  subst hoff hlen
  have hc : front.length + src.length ≤ (front ++ (src ++ rest)).length := by
    simp
  simp only [memcpyFrom, if_pos hc, List.drop_left, List.take_left]

theorem leafEntryBytes_length (ks : List Int) :
    ∀ rs : List RecordId, rs.length = ks.length →
      (leafEntryBytes rs ks).length = 12 * ks.length := by
  induction ks with
  | nil => intro rs _; cases rs <;> simp [leafEntryBytes]
  | cons k ks ih =>
    intro rs h
    cases rs with
    | nil => simp at h
    | cons r rs =>
      simp only [List.length_cons, add_left_inj] at h
      simp only [leafEntryBytes, List.length_append, encodeRecordId_length,
        encodeInt32_length, ih rs h, List.length_cons]
      omega

theorem leaf_writeLoop_eq (ks : List Int) :
    ∀ (rs : List RecordId) (front : List Nat) (m off : Nat),
      rs.length = ks.length → off = front.length → 12 * ks.length ≤ m →
      BTLeafNode.writeLoop ks.length rs ks (front ++ List.replicate m 0) off
        = some (front ++ leafEntryBytes rs ks ++ List.replicate (m - 12 * ks.length) 0,
            off + 12 * ks.length) := by
  induction ks with
  | nil =>
    intro rs front m off h _ _
    cases rs with
    | nil => simp [BTLeafNode.writeLoop, leafEntryBytes]
    | cons r rs => simp at h
  | cons k ks ih =>
    intro rs front m off h hoff hm
    cases rs with
    | nil => simp at h
    | cons r rs =>
      simp only [List.length_cons, add_left_inj] at h
      simp only [List.length_cons] at hm
      have e1 := memcpyTo_zeros front (encodeRecordId r) m off hoff
        (by rw [encodeRecordId_length]; omega)
      have e2 := memcpyTo_zeros (front ++ encodeRecordId r) (encodeInt32 k)
        (m - (encodeRecordId r).length) (off + 8)
        (by simp [hoff, encodeRecordId_length])
        (by rw [encodeRecordId_length, encodeInt32_length]; omega)
      have e3 := ih rs (front ++ encodeRecordId r ++ encodeInt32 k)
        (m - (encodeRecordId r).length - (encodeInt32 k).length) (off + 8 + 4) h
        (by simp [hoff, encodeRecordId_length, encodeInt32_length])
        (by rw [encodeRecordId_length, encodeInt32_length]; omega)
      have hsub : m - 8 - 4 - 12 * ks.length = m - 12 * (ks.length + 1) := by omega
      simp only [List.length_cons, BTLeafNode.writeLoop, e1, e2, e3, leafEntryBytes]
      simp only [encodeRecordId_length, encodeInt32_length, List.append_assoc, hsub,
        Option.some.injEq, Prod.mk.injEq, true_and]
      omega

theorem leaf_write_eq (n : BTLeafNode) (pageSize : Nat) (hwf : n.WF)
    (hps : 12 + 12 * n.keys.length ≤ pageSize) :
    n.write pageSize = some (RC.ok, leafPage n pageSize) := by
  obtain ⟨hk, hr⟩ := hwf
  have hn : n.length.toNat = n.keys.length := by omega
  have e1 := memcpyTo_zeros [] (encodeInt32 n.isLeaf) pageSize 0 rfl
    (by rw [encodeInt32_length]; omega)
  have e2 := memcpyTo_zeros (encodeInt32 n.isLeaf) (encodeInt32 n.length)
    (pageSize - (encodeInt32 n.isLeaf).length) 4 (by rw [encodeInt32_length])
    (by simp only [encodeInt32_length]; omega)
  have e3 := leaf_writeLoop_eq n.keys n.records (encodeInt32 n.isLeaf ++ encodeInt32 n.length)
    (pageSize - (encodeInt32 n.isLeaf).length - (encodeInt32 n.length).length) 8 hr
    (by simp [encodeInt32_length]) (by simp only [encodeInt32_length]; omega)
  have e4 := memcpyTo_zeros
    (encodeInt32 n.isLeaf ++ encodeInt32 n.length ++ leafEntryBytes n.records n.keys)
    (encodeInt32 n.nextLeaf)
    (pageSize - (encodeInt32 n.isLeaf).length - (encodeInt32 n.length).length
      - 12 * n.keys.length) (8 + 12 * n.keys.length)
    (by simp [encodeInt32_length, leafEntryBytes_length n.keys n.records hr]; omega)
    (by simp only [encodeInt32_length]; omega)
  simp only [List.nil_append] at e1
  have hsub : pageSize - 4 - 4 - 12 * n.keys.length - 4 = pageSize - (12 + 12 * n.keys.length) := by
    omega
  simp only [BTLeafNode.write, e1, e2, hn, e3, e4, leafPage]
  simp only [encodeInt32_length, List.append_assoc, hsub]

theorem leafPage_length (n : BTLeafNode) (pageSize : Nat) (hwf : n.WF)
    (hps : 12 + 12 * n.keys.length ≤ pageSize) : (leafPage n pageSize).length = pageSize := by
  simp only [leafPage, List.length_append, encodeInt32_length,
    leafEntryBytes_length n.keys n.records hwf.2, List.length_replicate]
  omega

theorem leaf_readLoop_eq (ks : List Int) :
    ∀ (rs : List RecordId) (front rest buf : List Nat) (off : Nat)
      (accR : List RecordId) (accK : List Int),
      rs.length = ks.length → off = front.length →
      buf = front ++ (leafEntryBytes rs ks ++ rest) →
      (∀ k ∈ ks, isInt32 k) → (∀ r ∈ rs, isInt32 r.pid ∧ isInt32 r.sid) →
      BTLeafNode.readLoop ks.length buf off accR accK
        = some (accR ++ rs, accK ++ ks, off + 12 * ks.length) := by
  induction ks with
  | nil =>
    intro rs front rest buf off accR accK h _ _ _ _
    cases rs with
    | nil => simp [BTLeafNode.readLoop]
    | cons r rs => simp at h
  | cons k ks ih =>
    intro rs front rest buf off accR accK h hoff hbuf hik hir
    cases rs with
    | nil => simp at h
    | cons r rs =>
      simp only [List.length_cons, add_left_inj] at h
      have b1 : buf = front ++ (encodeRecordId r
          ++ (encodeInt32 k ++ (leafEntryBytes rs ks ++ rest))) := by
        rw [hbuf]; simp [leafEntryBytes]
      have b2 : buf = (front ++ encodeRecordId r)
          ++ (encodeInt32 k ++ (leafEntryBytes rs ks ++ rest)) := by
        rw [b1]; simp
      have b3 : buf = (front ++ encodeRecordId r ++ encodeInt32 k)
          ++ (leafEntryBytes rs ks ++ rest) := by
        rw [b1]; simp
      have e1 : memcpyFrom buf off 8 = some (encodeRecordId r) := by
        rw [b1]; exact memcpyFrom_mid _ _ _ _ _ hoff (encodeRecordId_length r).symm
      have e2 : memcpyFrom buf (off + 8) 4 = some (encodeInt32 k) := by
        rw [b2]
        exact memcpyFrom_mid _ _ _ _ _ (by simp [hoff, encodeRecordId_length])
          (encodeInt32_length k).symm
      have e3 := ih rs (front ++ encodeRecordId r ++ encodeInt32 k) rest buf (off + 8 + 4)
        (accR ++ [decodeRecordId (encodeRecordId r)]) (accK ++ [decodeInt32 (encodeInt32 k)])
        h (by simp [hoff, encodeRecordId_length, encodeInt32_length]) b3
        (fun x hx => hik x (List.mem_cons_of_mem _ hx))
        (fun x hx => hir x (List.mem_cons_of_mem _ hx))
      rw [decode_encodeRecordId r (hir r (by simp)), decode_encodeInt32 k (hik k (by simp))]
        at e3
      simp only [List.length_cons, BTLeafNode.readLoop, e1, e2, e3,
        decode_encodeRecordId r (hir r (by simp)), decode_encodeInt32 k (hik k (by simp))]
      simp only [List.append_assoc, List.singleton_append, Option.some.injEq, Prod.mk.injEq,
        true_and]
      omega

theorem leaf_read_eq (n0 n : BTLeafNode) (pageSize : Nat) (hwf : n.WF)
    (hil : isInt32 n.length)
    (hik : ∀ k ∈ n.keys, isInt32 k) (hir : ∀ r ∈ n.records, isInt32 r.pid ∧ isInt32 r.sid)
    (hin : isInt32 n.nextLeaf) :
    n0.read (leafPage n pageSize) = some (RC.ok,
      { n0 with isLeaf := decodeInt32 (encodeInt32 n.isLeaf), length := n.length,
                records := n0.records ++ n.records, keys := n0.keys ++ n.keys,
                nextLeaf := n.nextLeaf }) := by
  obtain ⟨hk, hr⟩ := hwf
  have hn : n.length.toNat = n.keys.length := by omega
  have e1 : memcpyFrom (leafPage n pageSize) 0 4 = some (encodeInt32 n.isLeaf) := by
    have := memcpyFrom_mid [] (encodeInt32 n.isLeaf)
      (encodeInt32 n.length ++ (leafEntryBytes n.records n.keys
        ++ (encodeInt32 n.nextLeaf
          ++ List.replicate (pageSize - (12 + 12 * n.keys.length)) 0))) 0 4 rfl
      (encodeInt32_length _).symm
    simpa [leafPage] using this
  have e2 : memcpyFrom (leafPage n pageSize) 4 4 = some (encodeInt32 n.length) := by
    exact memcpyFrom_mid _ _ _ _ _ (encodeInt32_length _).symm (encodeInt32_length _).symm
  have e3 := leaf_readLoop_eq n.keys n.records (encodeInt32 n.isLeaf ++ encodeInt32 n.length)
    (encodeInt32 n.nextLeaf ++ List.replicate (pageSize - (12 + 12 * n.keys.length)) 0)
    (leafPage n pageSize) 8 n0.records n0.keys hr (by simp [encodeInt32_length])
    (by simp [leafPage]) hik hir
  have e4 : memcpyFrom (leafPage n pageSize) (8 + 12 * n.keys.length) 4
      = some (encodeInt32 n.nextLeaf) := by
    have hb : leafPage n pageSize
        = (encodeInt32 n.isLeaf ++ encodeInt32 n.length ++ leafEntryBytes n.records n.keys)
          ++ (encodeInt32 n.nextLeaf
            ++ List.replicate (pageSize - (12 + 12 * n.keys.length)) 0) := by
      simp [leafPage]
    rw [hb]
    exact memcpyFrom_mid _ _ _ _ _
      (by simp [encodeInt32_length, leafEntryBytes_length n.keys n.records hr]; omega)
      (encodeInt32_length _).symm
  simp only [BTLeafNode.read, e1, e2, decode_encodeInt32 _ hil, hn, e3, e4,
    decode_encodeInt32 _ hin]

theorem nonLeafEntryBytes_length (ks : List Int) :
    ∀ ps : List Int, ps.length = ks.length →
      (nonLeafEntryBytes ps ks).length = 8 * ks.length := by
  induction ks with
  | nil => intro ps _; cases ps <;> simp [nonLeafEntryBytes]
  | cons k ks ih =>
    intro ps h
    cases ps with
    | nil => simp at h
    | cons p ps =>
      simp only [List.length_cons, add_left_inj] at h
      simp only [nonLeafEntryBytes, List.length_append, encodeInt32_length, ih ps h,
        List.length_cons]
      omega

theorem nonleaf_writeLoop_eq (ks : List Int) :
    ∀ (ps : List Int) (front : List Nat) (m off : Nat),
      ps.length = ks.length → off = front.length → 8 * ks.length ≤ m →
      BTNonLeafNode.writeLoop ks.length ps ks (front ++ List.replicate m 0) off
        = some (front ++ nonLeafEntryBytes ps ks ++ List.replicate (m - 8 * ks.length) 0,
            off + 8 * ks.length) := by
  induction ks with
  | nil =>
    intro ps front m off h _ _
    cases ps with
    | nil => simp [BTNonLeafNode.writeLoop, nonLeafEntryBytes]
    | cons p ps => simp at h
  | cons k ks ih =>
    intro ps front m off h hoff hm
    cases ps with
    | nil => simp at h
    | cons p ps =>
      simp only [List.length_cons, add_left_inj] at h
      simp only [List.length_cons] at hm
      have e1 := memcpyTo_zeros front (encodeInt32 p) m off hoff
        (by rw [encodeInt32_length]; omega)
      have e2 := memcpyTo_zeros (front ++ encodeInt32 p) (encodeInt32 k)
        (m - (encodeInt32 p).length) (off + 4)
        (by simp [hoff, encodeInt32_length])
        (by simp only [encodeInt32_length]; omega)
      have e3 := ih ps (front ++ encodeInt32 p ++ encodeInt32 k)
        (m - (encodeInt32 p).length - (encodeInt32 k).length) (off + 4 + 4) h
        (by simp [hoff, encodeInt32_length])
        (by simp only [encodeInt32_length]; omega)
      have hsub : m - 4 - 4 - 8 * ks.length = m - 8 * (ks.length + 1) := by omega
      simp only [List.length_cons, BTNonLeafNode.writeLoop, e1, e2, e3, nonLeafEntryBytes]
      simp only [encodeInt32_length, List.append_assoc, hsub,
        Option.some.injEq, Prod.mk.injEq, true_and]
      omega

theorem nonleaf_write_eq (n : BTNonLeafNode) (pageSize : Nat) (hwf : n.WF)
    (hps : 12 + 8 * n.keys.length ≤ pageSize) :
    n.write pageSize = some (RC.ok, nonLeafPage n pageSize) := by
  obtain ⟨hk, hp⟩ := hwf
  have hn : n.length.toNat = n.keys.length := by omega
  have e1 := memcpyTo_zeros [] (encodeInt32 n.isLeaf) pageSize 0 rfl
    (by rw [encodeInt32_length]; omega)
  have e2 := memcpyTo_zeros (encodeInt32 n.isLeaf) (encodeInt32 n.length)
    (pageSize - (encodeInt32 n.isLeaf).length) 4 (by rw [encodeInt32_length])
    (by simp only [encodeInt32_length]; omega)
  have e3 := nonleaf_writeLoop_eq n.keys n.pages (encodeInt32 n.isLeaf ++ encodeInt32 n.length)
    (pageSize - (encodeInt32 n.isLeaf).length - (encodeInt32 n.length).length) 8 hp
    (by simp [encodeInt32_length]) (by simp only [encodeInt32_length]; omega)
  have e4 := memcpyTo_zeros
    (encodeInt32 n.isLeaf ++ encodeInt32 n.length ++ nonLeafEntryBytes n.pages n.keys)
    (encodeInt32 n.lastId)
    (pageSize - (encodeInt32 n.isLeaf).length - (encodeInt32 n.length).length
      - 8 * n.keys.length) (8 + 8 * n.keys.length)
    (by simp [encodeInt32_length, nonLeafEntryBytes_length n.keys n.pages hp]; omega)
    (by simp only [encodeInt32_length]; omega)
  simp only [List.nil_append] at e1
  have hsub : pageSize - 4 - 4 - 8 * n.keys.length - 4 = pageSize - (12 + 8 * n.keys.length) := by
    omega
  simp only [BTNonLeafNode.write, e1, e2, hn, e3, e4, nonLeafPage]
  simp only [encodeInt32_length, List.append_assoc, hsub]

theorem nonLeafPage_length (n : BTNonLeafNode) (pageSize : Nat) (hwf : n.WF)
    (hps : 12 + 8 * n.keys.length ≤ pageSize) :
    (nonLeafPage n pageSize).length = pageSize := by
  simp only [nonLeafPage, List.length_append, encodeInt32_length,
    nonLeafEntryBytes_length n.keys n.pages hwf.2, List.length_replicate]
  omega

theorem nonleaf_readLoop_eq (ks : List Int) :
    ∀ (ps : List Int) (front rest buf : List Nat) (off : Nat) (accP accK : List Int),
      ps.length = ks.length → off = front.length →
      buf = front ++ (nonLeafEntryBytes ps ks ++ rest) →
      (∀ k ∈ ks, isInt32 k) → (∀ p ∈ ps, isInt32 p) →
      BTNonLeafNode.readLoop ks.length buf off accP accK
        = some (accP ++ ps, accK ++ ks, off + 8 * ks.length) := by
  induction ks with
  | nil =>
    intro ps front rest buf off accP accK h _ _ _ _
    cases ps with
    | nil => simp [BTNonLeafNode.readLoop]
    | cons p ps => simp at h
  | cons k ks ih =>
    intro ps front rest buf off accP accK h hoff hbuf hik hip
    cases ps with
    | nil => simp at h
    | cons p ps =>
      simp only [List.length_cons, add_left_inj] at h
      have b1 : buf = front ++ (encodeInt32 p
          ++ (encodeInt32 k ++ (nonLeafEntryBytes ps ks ++ rest))) := by
        rw [hbuf]; simp [nonLeafEntryBytes]
      have b2 : buf = (front ++ encodeInt32 p)
          ++ (encodeInt32 k ++ (nonLeafEntryBytes ps ks ++ rest)) := by
        rw [b1]; simp
      have b3 : buf = (front ++ encodeInt32 p ++ encodeInt32 k)
          ++ (nonLeafEntryBytes ps ks ++ rest) := by
        rw [b1]; simp
      have e1 : memcpyFrom buf off 4 = some (encodeInt32 p) := by
        rw [b1]; exact memcpyFrom_mid _ _ _ _ _ hoff (encodeInt32_length p).symm
      have e2 : memcpyFrom buf (off + 4) 4 = some (encodeInt32 k) := by
        rw [b2]
        exact memcpyFrom_mid _ _ _ _ _ (by simp [hoff, encodeInt32_length])
          (encodeInt32_length k).symm
      have e3 := ih ps (front ++ encodeInt32 p ++ encodeInt32 k) rest buf (off + 4 + 4)
        (accP ++ [decodeInt32 (encodeInt32 p)]) (accK ++ [decodeInt32 (encodeInt32 k)])
        h (by simp [hoff, encodeInt32_length]) b3
        (fun x hx => hik x (List.mem_cons_of_mem _ hx))
        (fun x hx => hip x (List.mem_cons_of_mem _ hx))
      rw [decode_encodeInt32 p (hip p (by simp)), decode_encodeInt32 k (hik k (by simp))] at e3
      simp only [List.length_cons, BTNonLeafNode.readLoop, e1, e2, e3,
        decode_encodeInt32 p (hip p (by simp)), decode_encodeInt32 k (hik k (by simp))]
      simp only [List.append_assoc, List.singleton_append, Option.some.injEq, Prod.mk.injEq,
        true_and]
      omega

theorem nonleaf_read_eq (n0 n : BTNonLeafNode) (pageSize : Nat) (hwf : n.WF)
    (hil : isInt32 n.length)
    (hik : ∀ k ∈ n.keys, isInt32 k) (hip : ∀ p ∈ n.pages, isInt32 p)
    (hin : isInt32 n.lastId) :
    n0.read (nonLeafPage n pageSize) = some (RC.ok,
      { n0 with isLeaf := decodeInt32 (encodeInt32 n.isLeaf), length := n.length,
                pages := n0.pages ++ n.pages, keys := n0.keys ++ n.keys,
                lastId := n.lastId }) := by
  obtain ⟨hk, hp⟩ := hwf
  have hn : n.length.toNat = n.keys.length := by omega
  have e1 : memcpyFrom (nonLeafPage n pageSize) 0 4 = some (encodeInt32 n.isLeaf) := by
    have := memcpyFrom_mid [] (encodeInt32 n.isLeaf)
      (encodeInt32 n.length ++ (nonLeafEntryBytes n.pages n.keys
        ++ (encodeInt32 n.lastId
          ++ List.replicate (pageSize - (12 + 8 * n.keys.length)) 0))) 0 4 rfl
      (encodeInt32_length _).symm
    simpa [nonLeafPage] using this
  have e2 : memcpyFrom (nonLeafPage n pageSize) 4 4 = some (encodeInt32 n.length) := by
    exact memcpyFrom_mid _ _ _ _ _ (encodeInt32_length _).symm (encodeInt32_length _).symm
  have e3 := nonleaf_readLoop_eq n.keys n.pages (encodeInt32 n.isLeaf ++ encodeInt32 n.length)
    (encodeInt32 n.lastId ++ List.replicate (pageSize - (12 + 8 * n.keys.length)) 0)
    (nonLeafPage n pageSize) 8 n0.pages n0.keys hp (by simp [encodeInt32_length])
    (by simp [nonLeafPage]) hik hip
  have e4 : memcpyFrom (nonLeafPage n pageSize) (8 + 8 * n.keys.length) 4
      = some (encodeInt32 n.lastId) := by
    have hb : nonLeafPage n pageSize
        = (encodeInt32 n.isLeaf ++ encodeInt32 n.length ++ nonLeafEntryBytes n.pages n.keys)
          ++ (encodeInt32 n.lastId
            ++ List.replicate (pageSize - (12 + 8 * n.keys.length)) 0) := by
      simp [nonLeafPage]
    rw [hb]
    exact memcpyFrom_mid _ _ _ _ _
      (by simp [encodeInt32_length, nonLeafEntryBytes_length n.keys n.pages hp]; omega)
      (encodeInt32_length _).symm
  simp only [BTNonLeafNode.read, e1, e2, decode_encodeInt32 _ hil, hn, e3, e4,
    decode_encodeInt32 _ hin]

/-! ## Serialization round trip -/

/-- C9: a leaf node, and likewise a non-leaf node, with `length ≤ 75` equal to the
number of stored entries is written by `write` into the page buffer (of at least the
924 bytes the format needs), and `read` of that buffer into a freshly constructed
node of the same kind gives a node with the same `length`, the same entries in the
same order and the same next-leaf pointer (leaf) or last pointer (non-leaf).  The
stored values are `int`s, that is, within the 32-bit range. -/
theorem serialization_round_trip (pageSize : Nat) (hps : 924 ≤ pageSize)
    (n : BTLeafNode) (id : Int) (hwf : n.WF) (hlen : n.length ≤ 75)
    (hik : ∀ k ∈ n.keys, isInt32 k) (hir : ∀ r ∈ n.records, isInt32 r.pid ∧ isInt32 r.sid)
    (hin : isInt32 n.nextLeaf)
    (m : BTNonLeafNode) (mid mlast : Int) (hmwf : m.WF) (hmlen : m.length ≤ 75)
    (hmk : ∀ k ∈ m.keys, isInt32 k) (hmp : ∀ p ∈ m.pages, isInt32 p)
    (hml : isInt32 m.lastId) :
    (∃ (page : List Nat) (n1 : BTLeafNode),
      n.write pageSize = some (RC.ok, page) ∧ page.length = pageSize ∧
      (BTLeafNode.create id).read page = some (RC.ok, n1) ∧
      n1.length = n.length ∧ n1.keys = n.keys ∧ n1.records = n.records ∧
      n1.entries = n.entries ∧ n1.nextLeaf = n.nextLeaf ∧ n1.id = id) ∧
    (∃ (page : List Nat) (m1 : BTNonLeafNode),
      m.write pageSize = some (RC.ok, page) ∧ page.length = pageSize ∧
      (BTNonLeafNode.create mid mlast).read page = some (RC.ok, m1) ∧
      m1.length = m.length ∧ m1.keys = m.keys ∧ m1.pages = m.pages ∧
      m1.lastId = m.lastId ∧ m1.id = mid) := by
  have hnk : 12 + 12 * n.keys.length ≤ pageSize := by
    have := hwf.1
    omega
  have hmk2 : 12 + 8 * m.keys.length ≤ pageSize := by
    have := hmwf.1
    omega
  have hnl : isInt32 n.length := by
    have := hwf.1
    constructor <;> omega
  have hmll : isInt32 m.length := by
    have := hmwf.1
    constructor <;> omega
  constructor
  · refine ⟨leafPage n pageSize, _, leaf_write_eq n pageSize hwf hnk,
      leafPage_length n pageSize hwf hnk,
      leaf_read_eq (BTLeafNode.create id) n pageSize hwf hnl hik hir hin, rfl, ?_, ?_, ?_,
      rfl, rfl⟩
    · simp [BTLeafNode.create]
    · simp [BTLeafNode.create]
    · simp [BTLeafNode.create, BTLeafNode.entries]
  · refine ⟨nonLeafPage m pageSize, _, nonleaf_write_eq m pageSize hmwf hmk2,
      nonLeafPage_length m pageSize hmwf hmk2,
      nonleaf_read_eq (BTNonLeafNode.create mid mlast) m pageSize hmwf hmll hmk hmp hml,
      rfl, ?_, ?_, rfl, rfl⟩
    · simp [BTNonLeafNode.create]
    · simp [BTNonLeafNode.create]

/-- C9 at the leaf with keys `10, 20, 30` and the non-leaf node with keys `10, 20`,
with pages of 1024 bytes. -/
theorem serialization_round_trip_witness :
    (∃ (page : List Nat) (n1 : BTLeafNode),
      exampleLeaf3.write 1024 = some (RC.ok, page) ∧ page.length = 1024 ∧
      (BTLeafNode.create 4).read page = some (RC.ok, n1) ∧
      n1.length = exampleLeaf3.length ∧ n1.keys = exampleLeaf3.keys ∧
      n1.records = exampleLeaf3.records ∧
      n1.entries = exampleLeaf3.entries ∧ n1.nextLeaf = exampleLeaf3.nextLeaf ∧ n1.id = 4) ∧
    (∃ (page : List Nat) (m1 : BTNonLeafNode),
      exampleNonLeaf2.write 1024 = some (RC.ok, page) ∧ page.length = 1024 ∧
      (BTNonLeafNode.create 5 0).read page = some (RC.ok, m1) ∧
      m1.length = exampleNonLeaf2.length ∧ m1.keys = exampleNonLeaf2.keys ∧
      m1.pages = exampleNonLeaf2.pages ∧
      m1.lastId = exampleNonLeaf2.lastId ∧ m1.id = 5) :=
  serialization_round_trip 1024 (by decide) exampleLeaf3 4 (by decide) (by decide)
    (by decide) (by decide) (by decide) exampleNonLeaf2 5 0 (by decide) (by decide)
    (by decide) (by decide) (by decide)

/-! ## `insertAndSplit` with a sibling that already holds entries -/

/-- C10 (as amended): `insertAndSplit` does not inspect the sibling.  For a leaf and
for a non-leaf node with exactly 75 entries and a sibling that already holds at
least one entry, it returns success, not an error; this node is left with 38
entries and the moved entries (38 for a leaf, 37 for a non-leaf node) are appended
after the sibling's existing entries, so both nodes change; for a leaf the returned
separator is the first key the sibling already had. -/
theorem insertAndSplit_nonempty_sibling_appends
    (n : BTLeafNode) (key : Int) (rid : RecordId) (sibling : BTLeafNode) (siblingKey : Int)
    (hwf : n.WF) (hlen : n.length = 75) (hswf : sibling.WF) (hsne : 1 ≤ sibling.length)
    (m : BTNonLeafNode) (mkey mpid : Int) (msibling : BTNonLeafNode) (midKey : Int)
    (hmwf : m.WF) (hmlen : m.length = 75) (hmswf : msibling.WF) (hmsne : 1 ≤ msibling.length) :
    (∃ r : BTLeafNode.SplitResult,
      n.insertAndSplit key rid sibling siblingKey = some r ∧ r.rc = RC.ok ∧
      r.node.length = 38 ∧
      r.node.entries = (specOrderedInsert key rid n.entries).take 38 ∧
      r.sibling.entries = sibling.entries ++ (specOrderedInsert key rid n.entries).drop 38 ∧
      r.sibling.length = sibling.length + 38 ∧
      sibling.keys.head? = some r.siblingKey ∧
      r.node ≠ n ∧ r.sibling ≠ sibling) ∧
    (∃ (m1 : BTNonLeafNode) (r : BTNonLeafNode.SplitResult),
      m.insertWithoutCheck mkey mpid = some (RC.ok, m1) ∧
      m.insertAndSplit mkey mpid msibling midKey = some r ∧ r.rc = RC.ok ∧
      r.node.length = 38 ∧ r.node.keys = m1.keys.take 38 ∧ r.node.pages = m1.pages.take 38 ∧
      r.sibling.keys = msibling.keys ++ m1.keys.drop 39 ∧
      r.sibling.pages = msibling.pages ++ m1.pages.drop 39 ∧
      r.sibling.length = msibling.length + 37 ∧ r.sibling.WF ∧
      r.sibling.keys.head? = msibling.keys.head? ∧
      r.node ≠ m ∧ r.sibling ≠ msibling) := by
  constructor
  · obtain ⟨k, hk0, heq⟩ := leaf_insertAndSplit_eq n key rid sibling siblingKey hwf hlen hswf
    obtain ⟨hk, hr⟩ := hwf
    obtain ⟨hsk, hsr⟩ := hswf
    have hle := scanIndex_le key n.keys
    have hE : specOrderedInsert key rid n.entries
        = (listInsert n.keys (scanIndex key n.keys) key).zip
            (listInsert n.records (scanIndex key n.keys) rid) := by
      simp only [BTLeafNode.entries]
      rw [listInsert_zip _ _ _ _ _ hr, specOrderedInsert_eq key rid n.keys n.records hr]
    have hpos : 0 < sibling.keys.length := by omega
    refine ⟨_, heq, rfl, rfl, ?_, ?_, rfl, ?_, ?_, ?_⟩
    · rw [hE, zip_take]; rfl
    · rw [hE, zip_drop]
      simp only [BTLeafNode.entries]
      rw [List.zip_append hsr.symm]
    · rw [List.getElem?_append_left hpos] at hk0
      rw [List.head?_eq_getElem?]; exact hk0
    · intro h
      have := congrArg BTLeafNode.length h
      simp only at this
      omega
    · intro h
      have := congrArg BTLeafNode.length h
      simp only at this
      omega
  · obtain ⟨hk, hp⟩ := hmwf
    obtain ⟨m1, h1, _, _, _, hK, hP, hL, _, _⟩ := nonleaf_insertWithoutCheck_eq m mkey mpid hp
    obtain ⟨mid, midPid, _, _, heq⟩ :=
      nonleaf_insertAndSplit_eq m m1 mkey mpid msibling midKey hmlen h1
        (by omega) (by omega) (by omega)
    obtain ⟨hsk, hsp⟩ := hmswf
    have hpos : 0 < msibling.keys.length := by omega
    refine ⟨m1, _, h1, heq, rfl, rfl, rfl, rfl, rfl, rfl, rfl, ?_, ?_, ?_, ?_⟩
    · constructor
      · simp only [List.length_append, List.length_drop, Nat.cast_add]
        omega
      · simp only [List.length_append, List.length_drop]
        omega
    · simp only [List.head?_eq_getElem?]
      exact List.getElem?_append_left hpos
    · intro h
      have := congrArg BTNonLeafNode.length h
      simp only at this
      omega
    · intro h
      have := congrArg BTNonLeafNode.length h
      simp only at this
      omega

set_option maxRecDepth 100000 in
/-- C10 (as amended) with the siblings that hold the keys `10, 20, 30`, respectively
`10, 20`: the split of the full nodes with keys `1..75` succeeds and the siblings
grow to 41 and 39 entries. -/
theorem insertAndSplit_nonempty_sibling_appends_witness :
    (∃ r : BTLeafNode.SplitResult,
      exampleLeaf75.insertAndSplit 76 { pid := 1000, sid := 1 } exampleLeaf3 0 = some r ∧
      r.rc = RC.ok ∧ r.node.length = 38 ∧
      r.sibling.length = exampleLeaf3.length + 38 ∧ r.siblingKey = 10) ∧
    (∃ r : BTNonLeafNode.SplitResult,
      exampleNonLeaf75.insertAndSplit 76 200 exampleNonLeaf2 0 = some r ∧
      r.rc = RC.ok ∧ r.node.length = 38 ∧
      r.sibling.length = exampleNonLeaf2.length + 37) := by
  obtain ⟨⟨r, h1, h2, h3, _, _, h6, h7, _⟩, ⟨_, r2, _, k1, k2, k3, _, _, _, _, k8, _⟩⟩ :=
    insertAndSplit_nonempty_sibling_appends exampleLeaf75 76 { pid := 1000, sid := 1 }
      exampleLeaf3 0 (by decide) (by decide) (by decide) (by decide)
      exampleNonLeaf75 76 200 exampleNonLeaf2 0 (by decide) (by decide) (by decide)
      (by decide)
  refine ⟨⟨r, h1, h2, h3, h6, ?_⟩, ⟨r2, k1, k2, k3, k8⟩⟩
  have h10 : exampleLeaf3.keys.head? = some 10 := rfl
  rw [h10] at h7
  exact (Option.some.inj h7).symm

set_option maxRecDepth 100000 in
/-- C10, a counterexample to the claim as stated: the full leaf with keys `1..75` and
the sibling with keys `10, 20, 30`, and the full non-leaf node with keys `1..75` and
the sibling with keys `10, 20`.  `insertAndSplit` returns success, not an error, and
neither this node nor the sibling is left unchanged. -/
theorem insertAndSplit_nonempty_sibling_counterexample :
    (∃ r : BTLeafNode.SplitResult,
      exampleLeaf75.insertAndSplit 76 { pid := 1000, sid := 1 } exampleLeaf3 0 = some r ∧
      r.rc = RC.ok ∧ r.node.length = 38 ∧ exampleLeaf75.length = 75 ∧
      r.sibling.keys.length = 41 ∧ exampleLeaf3.keys.length = 3) ∧
    (∃ r : BTNonLeafNode.SplitResult,
      exampleNonLeaf75.insertAndSplit 76 200 exampleNonLeaf2 0 = some r ∧
      r.rc = RC.ok ∧ r.node.length = 38 ∧ exampleNonLeaf75.length = 75 ∧
      r.sibling.keys.length = 39 ∧ exampleNonLeaf2.keys.length = 2) :=
  ⟨⟨_, rfl, rfl, rfl, rfl, rfl, rfl⟩, ⟨_, rfl, rfl, rfl, rfl, rfl, rfl⟩⟩

/-! ## Capacity guards -/

/-- C11: for a leaf or non-leaf node with `length == 75`, `insert` returns
`RC_NODE_FULL` and the node is unchanged; for a leaf or non-leaf node with
`length < 75` and any sibling, `insertAndSplit` returns its invalid-argument code
(`RC_INVALID_RID` for a leaf, `RC_INVALID_PID` for a non-leaf node), both nodes are
unchanged and the output separator keeps the value it had. -/
theorem capacity_guards_atomic
    (n : BTLeafNode) (key : Int) (rid : RecordId) (hn : n.length = 75)
    (m : BTNonLeafNode) (mkey mpid : Int) (hm : m.length = 75)
    (n2 sibling : BTLeafNode) (siblingKey : Int) (hn2 : n2.length < 75)
    (m2 msibling : BTNonLeafNode) (midKey : Int) (hm2 : m2.length < 75) :
    n.insert key rid = some (RC.RC_NODE_FULL, n) ∧
    m.insert mkey mpid = some (RC.RC_NODE_FULL, m) ∧
    n2.insertAndSplit key rid sibling siblingKey
      = some { rc := RC.RC_INVALID_RID, node := n2, sibling := sibling,
               siblingKey := siblingKey } ∧
    m2.insertAndSplit mkey mpid msibling midKey
      = some { rc := RC.RC_INVALID_PID, node := m2, sibling := msibling,
               midKey := midKey } := by
  have h1 : n.length ≥ (MAX_KEYS : Int) := by simp [MAX_KEYS]; omega
  have h2 : m.length ≥ (MAX_KEYS : Int) := by simp [MAX_KEYS]; omega
  have h3 : n2.length < (MAX_KEYS : Int) := by simp [MAX_KEYS]; omega
  have h4 : m2.length < (MAX_KEYS : Int) := by simp [MAX_KEYS]; omega
  refine ⟨?_, ?_, ?_, ?_⟩
  · simp only [BTLeafNode.insert, if_pos h1]
  · simp only [BTNonLeafNode.insert, if_pos h2]
  · simp only [BTLeafNode.insertAndSplit, if_pos h3]
  · simp only [BTNonLeafNode.insertAndSplit, if_pos h4]

set_option maxRecDepth 100000 in
/-- C11 at the full nodes with keys `1..75` (for `insert`) and at the nodes with keys
`10, 20, 30` and `10, 20` (for `insertAndSplit`, with themselves as siblings). -/
theorem capacity_guards_atomic_witness :
    exampleLeaf75.insert 76 { pid := 1000, sid := 1 } = some (RC.RC_NODE_FULL, exampleLeaf75) ∧
    exampleNonLeaf75.insert 76 200 = some (RC.RC_NODE_FULL, exampleNonLeaf75) ∧
    exampleLeaf3.insertAndSplit 76 { pid := 1000, sid := 1 } exampleLeaf3 5
      = some { rc := RC.RC_INVALID_RID, node := exampleLeaf3, sibling := exampleLeaf3,
               siblingKey := 5 } ∧
    exampleNonLeaf2.insertAndSplit 76 200 exampleNonLeaf2 5
      = some { rc := RC.RC_INVALID_PID, node := exampleNonLeaf2, sibling := exampleNonLeaf2,
               midKey := 5 } :=
  capacity_guards_atomic exampleLeaf75 76 { pid := 1000, sid := 1 } (by decide)
    exampleNonLeaf75 76 200 (by decide) exampleLeaf3 exampleLeaf3 5 (by decide)
    exampleNonLeaf2 exampleNonLeaf2 5 (by decide)

/-! ## Occupancy after a split -/

/-- C12 (as amended): after a successful `insertAndSplit` on a node with 75 entries
and a fresh empty sibling, both resulting leaves hold 38 keys; for a non-leaf node
the node left behind holds 38 keys and the sibling holds 37 keys, which with its
last pointer are 38 child pointers. -/
theorem split_occupancy
    (n : BTLeafNode) (key : Int) (rid : RecordId) (sid siblingKey : Int)
    (hwf : n.WF) (hlen : n.length = 75)
    (m : BTNonLeafNode) (mkey mpid msid mslast midKey : Int)
    (hmwf : m.WF) (hmlen : m.length = 75) :
    (∃ r : BTLeafNode.SplitResult,
      n.insertAndSplit key rid (BTLeafNode.create sid) siblingKey = some r ∧ r.rc = RC.ok ∧
      r.node.getKeyCount = 38 ∧ r.node.keys.length = 38 ∧
      r.sibling.getKeyCount = 38 ∧ r.sibling.keys.length = 38) ∧
    (∃ r : BTNonLeafNode.SplitResult,
      m.insertAndSplit mkey mpid (BTNonLeafNode.create msid mslast) midKey = some r ∧
      r.rc = RC.ok ∧
      r.node.getKeyCount = 38 ∧ r.node.keys.length = 38 ∧
      r.sibling.getKeyCount = 37 ∧ r.sibling.keys.length = 37 ∧
      r.sibling.pages.length + 1 = 38) := by
  constructor
  · obtain ⟨k, _, heq⟩ := leaf_insertAndSplit_eq n key rid (BTLeafNode.create sid) siblingKey
      hwf hlen (by simp [BTLeafNode.WF, BTLeafNode.create])
    obtain ⟨hk, hr⟩ := hwf
    have hle := scanIndex_le key n.keys
    have hKl : (listInsert n.keys (scanIndex key n.keys) key).length = 76 := by
      rw [listInsert_length _ _ _ hle]; omega
    refine ⟨_, heq, rfl, rfl, ?_, ?_, ?_⟩
    · simp [hKl]
    · simp [BTLeafNode.getKeyCount, BTLeafNode.create]
    · simp [BTLeafNode.create, hKl]
  · obtain ⟨hk, hp⟩ := hmwf
    obtain ⟨m1, h1, _, _, _, hK, hP, hL, _, _⟩ := nonleaf_insertWithoutCheck_eq m mkey mpid hp
    obtain ⟨mid, midPid, _, _, heq⟩ :=
      nonleaf_insertAndSplit_eq m m1 mkey mpid (BTNonLeafNode.create msid mslast) midKey hmlen
        h1 (by omega) (by omega) (by omega)
    have hK76 : m1.keys.length = 76 := by omega
    have hP76 : m1.pages.length = 76 := by omega
    refine ⟨_, heq, rfl, rfl, ?_, ?_, ?_, ?_⟩
    · simp [hK76]
    · simp [BTNonLeafNode.getKeyCount, BTNonLeafNode.create]
    · simp [BTNonLeafNode.create, hK76]
    · simp [BTNonLeafNode.create, hP76]

set_option maxRecDepth 100000 in
/-- C12 (as amended) at the full nodes with keys `1..75`, inserting key `76`. -/
theorem split_occupancy_witness :
    (∃ r : BTLeafNode.SplitResult,
      exampleLeaf75.insertAndSplit 76 { pid := 1000, sid := 1 } (BTLeafNode.create 9) 0
        = some r ∧ r.rc = RC.ok ∧
      r.node.getKeyCount = 38 ∧ r.node.keys.length = 38 ∧
      r.sibling.getKeyCount = 38 ∧ r.sibling.keys.length = 38) ∧
    (∃ r : BTNonLeafNode.SplitResult,
      exampleNonLeaf75.insertAndSplit 76 200 (BTNonLeafNode.create 9 0) 0 = some r ∧
      r.rc = RC.ok ∧
      r.node.getKeyCount = 38 ∧ r.node.keys.length = 38 ∧
      r.sibling.getKeyCount = 37 ∧ r.sibling.keys.length = 37 ∧
      r.sibling.pages.length + 1 = 38) :=
  split_occupancy exampleLeaf75 76 { pid := 1000, sid := 1 } 9 0 (by decide) (by decide)
    exampleNonLeaf75 76 200 9 0 0 (by decide) (by decide)

set_option maxRecDepth 100000 in
/-- C12, a counterexample to the claim as stated: splitting the full non-leaf node
with keys `1..75` on inserting key `76` succeeds and leaves the sibling with 37
keys, fewer than 38. -/
theorem split_occupancy_counterexample :
    ∃ r : BTNonLeafNode.SplitResult,
      exampleNonLeaf75.insertAndSplit 76 200 (BTNonLeafNode.create 9 0) 0 = some r ∧
      r.rc = RC.ok ∧ r.sibling.getKeyCount = 37 ∧ r.sibling.keys.length = 37 ∧
      ¬ (38 ≤ r.sibling.getKeyCount) :=
  ⟨_, rfl, rfl, rfl, rfl, by decide⟩

/-! ## Leaf sibling chain -/

/-- C14: for a leaf with 75 entries whose next-leaf pointer is `N` and a fresh empty
sibling with page identifier `S`, after a successful `insertAndSplit` the sibling's
next-leaf pointer is `N`, this node's next-leaf pointer is `S`, and both nodes keep
their own page identifiers. -/
theorem leaf_split_links_chain (n : BTLeafNode) (key : Int) (rid : RecordId)
    (S siblingKey : Int) (hwf : n.WF) (hlen : n.length = 75) :
    ∃ r : BTLeafNode.SplitResult,
      n.insertAndSplit key rid (BTLeafNode.create S) siblingKey = some r ∧ r.rc = RC.ok ∧
      r.sibling.getNextNodePtr = n.getNextNodePtr ∧
      r.node.getNextNodePtr = S ∧
      r.node.getPageId = n.getPageId ∧ r.sibling.getPageId = S := by
  obtain ⟨k, _, heq⟩ := leaf_insertAndSplit_eq n key rid (BTLeafNode.create S) siblingKey
    hwf hlen (by simp [BTLeafNode.WF, BTLeafNode.create])
  exact ⟨_, heq, rfl, rfl, rfl, rfl, rfl⟩

set_option maxRecDepth 100000 in
/-- C14 at the full leaf with keys `1..75`, whose next-leaf pointer is the `-1`
sentinel, and a fresh sibling on page `9`. -/
theorem leaf_split_links_chain_witness :
    exampleLeaf75.WF ∧ exampleLeaf75.length = 75 ∧ exampleLeaf75.getNextNodePtr = -1 ∧
    exampleLeaf75.getPageId = 7 ∧
    (∃ r : BTLeafNode.SplitResult,
      exampleLeaf75.insertAndSplit 76 { pid := 1000, sid := 1 } (BTLeafNode.create 9) 0
        = some r ∧ r.rc = RC.ok ∧
      r.sibling.getNextNodePtr = exampleLeaf75.getNextNodePtr ∧
      r.node.getNextNodePtr = 9 ∧
      r.node.getPageId = exampleLeaf75.getPageId ∧ r.sibling.getPageId = 9) :=
  ⟨by decide, by decide, by decide, by decide,
    leaf_split_links_chain exampleLeaf75 76 { pid := 1000, sid := 1 } 9 0 (by decide)
      (by decide)⟩

/-! ## Leaf `readEntry` -/

/-- C15: for a leaf whose `length` is its number of stored entries and every integer
index, `readEntry` returns a result (no out-of-bounds access); it returns
`RC_NO_SUCH_RECORD`, leaving both outputs as they were, exactly when the index is
negative or at least `length`; otherwise it returns success with the key and record
identifier stored at that position. -/
theorem leaf_readEntry_bounds (n : BTLeafNode) (eid : Int) (key : Int) (rid : RecordId)
    (hwf : n.WF) :
    ∃ (rc : RC) (k : Int) (r : RecordId), n.readEntry eid key rid = some (rc, k, r) ∧
      (rc = RC.RC_NO_SUCH_RECORD ↔ (eid < 0 ∨ eid ≥ n.length)) ∧
      (rc = RC.RC_NO_SUCH_RECORD → k = key ∧ r = rid) ∧
      (rc ≠ RC.RC_NO_SUCH_RECORD →
        rc = RC.ok ∧ n.keys[eid.toNat]? = some k ∧ n.records[eid.toNat]? = some r ∧
        n.entries[eid.toNat]? = some (k, r)) := by
  obtain ⟨hk, hr⟩ := hwf
  by_cases hc : eid ≥ n.length ∨ eid < 0
  · refine ⟨RC.RC_NO_SUCH_RECORD, key, rid, by simp only [BTLeafNode.readEntry, if_pos hc],
      ?_, ?_, ?_⟩
    · simp only [true_iff]; omega
    · intro _; exact ⟨rfl, rfl⟩
    · intro h; exact absurd rfl h
  · have h1 : eid.toNat < n.keys.length := by omega
    have h2 : eid.toNat < n.records.length := by omega
    refine ⟨RC.ok, n.keys[eid.toNat], n.records[eid.toNat], ?_, ?_, ?_, ?_⟩
    · simp only [BTLeafNode.readEntry, if_neg hc, List.getElem?_eq_getElem h1,
        List.getElem?_eq_getElem h2]
    · constructor
      · intro h; exact absurd h (by decide)
      · intro h; omega
    · intro h; exact absurd h (by decide)
    · intro _
      refine ⟨rfl, List.getElem?_eq_getElem h1, List.getElem?_eq_getElem h2, ?_⟩
      simp only [BTLeafNode.entries]
      rw [List.getElem?_eq_getElem (by simp; omega)]
      simp

/-- C15 at the leaf with keys `10, 20, 30`: index `1` reads `(20, (2, 2))`, and the
indices `-1` and `3` are rejected with the outputs untouched. -/
theorem leaf_readEntry_bounds_witness :
    exampleLeaf3.WF ∧
    (∃ (rc : RC) (k : Int) (r : RecordId),
      exampleLeaf3.readEntry 1 0 { pid := 0, sid := 0 } = some (rc, k, r) ∧
      (rc = RC.RC_NO_SUCH_RECORD ↔ ((1 : Int) < 0 ∨ (1 : Int) ≥ exampleLeaf3.length)) ∧
      (rc = RC.RC_NO_SUCH_RECORD → k = 0 ∧ r = { pid := 0, sid := 0 }) ∧
      (rc ≠ RC.RC_NO_SUCH_RECORD →
        rc = RC.ok ∧ exampleLeaf3.keys[(1 : Int).toNat]? = some k ∧
        exampleLeaf3.records[(1 : Int).toNat]? = some r ∧
        exampleLeaf3.entries[(1 : Int).toNat]? = some (k, r))) ∧
    exampleLeaf3.readEntry 1 0 { pid := 0, sid := 0 }
      = some (RC.ok, 20, { pid := 2, sid := 2 }) ∧
    exampleLeaf3.readEntry (-1) 0 { pid := 0, sid := 0 }
      = some (RC.RC_NO_SUCH_RECORD, 0, { pid := 0, sid := 0 }) ∧
    exampleLeaf3.readEntry 3 0 { pid := 0, sid := 0 }
      = some (RC.RC_NO_SUCH_RECORD, 0, { pid := 0, sid := 0 }) :=
  ⟨by decide, leaf_readEntry_bounds exampleLeaf3 1 0 { pid := 0, sid := 0 } (by decide),
    by decide, by decide, by decide⟩

/-! ## Sequences of `insert` calls -/

theorem leaf_insertCalls_inv (calls : List (Int × RecordId)) :
    ∀ n : BTLeafNode, n.WF → n.length ≤ 75 → n.keys.Sorted (· ≤ ·) →
      ∃ (n1 : BTLeafNode) (c : Nat), n.insertCalls calls = some (n1, c) ∧
        n1.WF ∧ n1.keys.Sorted (· ≤ ·) ∧ n1.length = n.length + c ∧
        n1.length = min (n.length + calls.length) 75 := by
  induction calls with
  | nil =>
    intro n hwf hlen hs
    exact ⟨n, 0, rfl, hwf, hs, by simp, by simp; omega⟩
  | cons call rest ih =>
    intro n hwf hlen hs
    obtain ⟨key, rid⟩ := call
    by_cases hfull : n.length ≥ (MAX_KEYS : Int)
    · obtain ⟨n1, c, h1, h2, h3, h4, h5⟩ := ih n hwf hlen hs
      have h75 : n.length = 75 := by simp [MAX_KEYS] at hfull; omega
      refine ⟨n1, c, ?_, h2, h3, h4, ?_⟩
      · simp only [BTLeafNode.insertCalls, BTLeafNode.insert, if_pos hfull, h1]
        simp
      · simp only [List.length_cons, Nat.cast_add, Nat.cast_one]
        omega
    · have hlt : n.length < 75 := by simp [MAX_KEYS] at hfull; omega
      obtain ⟨hk, hr⟩ := hwf
      have hle := scanIndex_le key n.keys
      have hwf1 : BTLeafNode.WF
          { n with keys := listInsert n.keys (scanIndex key n.keys) key
                   records := listInsert n.records (scanIndex key n.keys) rid
                   length := n.length + 1 } := by
        constructor
        · simp only [listInsert_length _ _ _ hle]; push_cast; omega
        · simp only [listInsert_length _ _ _ hle, listInsert_length _ _ _ (by omega : scanIndex key n.keys ≤ n.records.length)]
          omega
      obtain ⟨n1, c, h1, h2, h3, h4, h5⟩ := ih _ hwf1 (by simp only; omega)
        (listInsert_scan_sorted key n.keys hs)
      refine ⟨n1, c + 1, ?_, h2, h3, ?_, ?_⟩
      · simp only [BTLeafNode.insertCalls, BTLeafNode.insert, if_neg hfull,
          leaf_insertWithoutCheck_eq n key rid hr, h1]
        simp
      · simp only at h4
        push_cast
        omega
      · simp only at h5
        simp only [List.length_cons, Nat.cast_add, Nat.cast_one]
        omega

theorem nonleaf_insertCalls_inv (calls : List (Int × Int)) :
    ∀ n : BTNonLeafNode, n.WF → n.length ≤ 75 → n.keys.Sorted (· ≤ ·) →
      ∃ (n1 : BTNonLeafNode) (c : Nat), n.insertCalls calls = some (n1, c) ∧
        n1.WF ∧ n1.keys.Sorted (· ≤ ·) ∧ n1.length = n.length + c ∧
        n1.length = min (n.length + calls.length) 75 := by
  induction calls with
  | nil =>
    intro n hwf hlen hs
    exact ⟨n, 0, rfl, hwf, hs, by simp, by simp; omega⟩
  | cons call rest ih =>
    intro n hwf hlen hs
    obtain ⟨key, pid⟩ := call
    by_cases hfull : n.length ≥ (MAX_KEYS : Int)
    · obtain ⟨n1, c, h1, h2, h3, h4, h5⟩ := ih n hwf hlen hs
      have h75 : n.length = 75 := by simp [MAX_KEYS] at hfull; omega
      refine ⟨n1, c, ?_, h2, h3, h4, ?_⟩
      · simp only [BTNonLeafNode.insertCalls, BTNonLeafNode.insert, if_pos hfull, h1]
        simp
      · simp only [List.length_cons, Nat.cast_add, Nat.cast_one]
        omega
    · have hlt : n.length < 75 := by simp [MAX_KEYS] at hfull; omega
      obtain ⟨hk, hp⟩ := hwf
      obtain ⟨n0, e0, _, hkeys, _, hK, hP, hL, _, _⟩ :=
        nonleaf_insertWithoutCheck_eq n key pid hp
      have hwf0 : n0.WF := ⟨by omega, by omega⟩
      have hs0 : n0.keys.Sorted (· ≤ ·) := by
        rw [hkeys]; exact listInsert_scan_sorted key n.keys hs
      obtain ⟨n1, c, h1, h2, h3, h4, h5⟩ := ih n0 hwf0 (by omega) hs0
      refine ⟨n1, c + 1, ?_, h2, h3, ?_, ?_⟩
      · simp only [BTNonLeafNode.insertCalls, BTNonLeafNode.insert, if_neg hfull, e0, h1]
        simp
      · push_cast
        omega
      · simp only [List.length_cons, Nat.cast_add, Nat.cast_one]
        omega

/-- C13: for every finite sequence of `insert` calls on a freshly constructed leaf,
and likewise on a freshly constructed non-leaf node, after each call (that is,
after the first `j` calls, for every `j` up to the number of calls) the stored keys
are in non-decreasing order and `getKeyCount` is the number of calls so far that
returned success, which is `min j 75`; so `length` never exceeds 75. -/
theorem insert_sequences_sorted_counted
    (calls : List (Int × RecordId)) (id : Int) (j : Nat) (hj : j ≤ calls.length)
    (mcalls : List (Int × Int)) (mid mlast : Int) (mj : Nat) (hmj : mj ≤ mcalls.length) :
    (∃ (n1 : BTLeafNode) (c : Nat),
      (BTLeafNode.create id).insertCalls (calls.take j) = some (n1, c) ∧
      n1.keys.Sorted (· ≤ ·) ∧ n1.getKeyCount = c ∧ c = min j 75 ∧
      n1.getKeyCount ≤ 75 ∧ n1.WF) ∧
    (∃ (m1 : BTNonLeafNode) (c : Nat),
      (BTNonLeafNode.create mid mlast).insertCalls (mcalls.take mj) = some (m1, c) ∧
      m1.keys.Sorted (· ≤ ·) ∧ m1.getKeyCount = c ∧ c = min mj 75 ∧
      m1.getKeyCount ≤ 75 ∧ m1.WF) := by
  constructor
  · obtain ⟨n1, c, h1, h2, h3, h4, h5⟩ := leaf_insertCalls_inv (calls.take j)
      (BTLeafNode.create id) (by simp [BTLeafNode.WF, BTLeafNode.create])
      (by simp [BTLeafNode.create]) (by simp [BTLeafNode.create])
    have hl : (calls.take j).length = j := by simp; omega
    simp only [BTLeafNode.create, hl] at h4 h5
    refine ⟨n1, c, h1, h3, ?_, ?_, ?_, h2⟩
    · simp only [BTLeafNode.getKeyCount]; omega
    · omega
    · simp only [BTLeafNode.getKeyCount]; omega
  · obtain ⟨m1, c, h1, h2, h3, h4, h5⟩ := nonleaf_insertCalls_inv (mcalls.take mj)
      (BTNonLeafNode.create mid mlast) (by simp [BTNonLeafNode.WF, BTNonLeafNode.create])
      (by simp [BTNonLeafNode.create]) (by simp [BTNonLeafNode.create])
    have hl : (mcalls.take mj).length = mj := by simp; omega
    simp only [BTNonLeafNode.create, hl] at h4 h5
    refine ⟨m1, c, h1, h3, ?_, ?_, ?_, h2⟩
    · simp only [BTNonLeafNode.getKeyCount]; omega
    · omega
    · simp only [BTNonLeafNode.getKeyCount]; omega

/-- C13 on three calls with the keys `20, 10, 20`: after the first two the nodes hold
`10, 20` with key count 2, and after all three `10, 20, 20` with key count 3. -/
theorem insert_sequences_sorted_counted_witness :
    (∃ (n1 : BTLeafNode) (c : Nat),
      (BTLeafNode.create 4).insertCalls
        ([((20 : Int), ({ pid := 1, sid := 1 } : RecordId)),
          (10, { pid := 2, sid := 2 }), (20, { pid := 3, sid := 3 })].take 2)
        = some (n1, c) ∧
      n1.keys.Sorted (· ≤ ·) ∧ n1.getKeyCount = c ∧ c = min 2 75 ∧
      n1.getKeyCount ≤ 75 ∧ n1.WF) ∧
    (∃ (m1 : BTNonLeafNode) (c : Nat),
      (BTNonLeafNode.create 4 0).insertCalls
        ([((20 : Int), (1 : Int)), (10, 2), (20, 3)].take 2) = some (m1, c) ∧
      m1.keys.Sorted (· ≤ ·) ∧ m1.getKeyCount = c ∧ c = min 2 75 ∧
      m1.getKeyCount ≤ 75 ∧ m1.WF) ∧
    ((BTLeafNode.create 4).insertCalls
        [(20, { pid := 1, sid := 1 }), (10, { pid := 2, sid := 2 }),
          (20, { pid := 3, sid := 3 })]).map (fun p => (p.1.keys, p.1.getKeyCount, p.2))
      = some ([10, 20, 20], 3, 3) ∧
    ((BTNonLeafNode.create 4 0).insertCalls [(20, 1), (10, 2), (20, 3)]).map
        (fun p => (p.1.keys, p.1.getKeyCount, p.2))
      = some ([10, 20, 20], 3, 3) := by
  obtain ⟨h1, h2⟩ := insert_sequences_sorted_counted
      [(20, { pid := 1, sid := 1 }), (10, { pid := 2, sid := 2 }),
        (20, { pid := 3, sid := 3 })] 4 2 (by decide) [(20, 1), (10, 2), (20, 3)] 4 0 2
      (by decide)
  exact ⟨h1, h2, by decide, by decide⟩

/-! ## Leaf page layout -/

theorem leafEntryBytes_slice (ks : List Int) :
    ∀ (rs : List RecordId) (i : Nat) (k : Int) (r : RecordId) (front rest : List Nat)
      (off : Nat),
      rs.length = ks.length → ks[i]? = some k → rs[i]? = some r →
      off = front.length + 12 * i →
      memcpyFrom (front ++ (leafEntryBytes rs ks ++ rest)) off 12
        = some (encodeRecordId r ++ encodeInt32 k) := by
  induction ks with
  | nil => intro rs i k r front rest off _ hk; simp at hk
  | cons k0 ks ih =>
    intro rs i k r front rest off h hk hr hoff
    cases rs with
    | nil => simp at h
    | cons r0 rs =>
      simp only [List.length_cons, add_left_inj] at h
      cases i with
      | zero =>
        simp only [List.getElem?_cons_zero, Option.some.injEq] at hk hr
        subst hk hr
        have hb : front ++ (leafEntryBytes (r0 :: rs) (k0 :: ks) ++ rest)
            = front ++ ((encodeRecordId r0 ++ encodeInt32 k0)
              ++ (leafEntryBytes rs ks ++ rest)) := by
          simp [leafEntryBytes]
        rw [hb]
        exact memcpyFrom_mid _ _ _ _ _ (by omega)
          (by simp [encodeRecordId_length, encodeInt32_length])
      | succ i =>
        simp only [List.getElem?_cons_succ] at hk hr
        have hb : front ++ (leafEntryBytes (r0 :: rs) (k0 :: ks) ++ rest)
            = (front ++ encodeRecordId r0 ++ encodeInt32 k0)
              ++ (leafEntryBytes rs ks ++ rest) := by
          simp [leafEntryBytes]
        rw [hb]
        exact ih rs i k r _ rest off h hk hr
          (by simp [encodeRecordId_length, encodeInt32_length]; omega)

/-- C16: for a leaf node (flag `isLeaf = 1`) with `length = L ≤ 75` stored entries,
the buffer `write` produces has `pageSize` bytes and holds the `int` `1` at offset 0,
`L` at offset 4, for each `i < L` the `i`-th entry in node order at offset
`8 + 12 * i` as record `pid`, record `sid`, key, the next-leaf pointer at offset
`8 + 12 * L`, and zero in every byte from offset `12 + 12 * L` to the end. -/
theorem leaf_page_layout (n : BTLeafNode) (pageSize : Nat) (hps : 924 ≤ pageSize)
    (hwf : n.WF) (hlen : n.length ≤ 75) (hleaf : n.isLeaf = 1) :
    ∃ page : List Nat, n.write pageSize = some (RC.ok, page) ∧ page.length = pageSize ∧
      memcpyFrom page 0 4 = some (encodeInt32 1) ∧ encodeInt32 1 = [1, 0, 0, 0] ∧
      memcpyFrom page 4 4 = some (encodeInt32 n.length) ∧
      (∀ (i : Nat) (k : Int) (r : RecordId),
        n.keys[i]? = some k → n.records[i]? = some r →
        memcpyFrom page (8 + 12 * i) 12
          = some (encodeInt32 r.pid ++ encodeInt32 r.sid ++ encodeInt32 k)) ∧
      memcpyFrom page (8 + 12 * n.length.toNat) 4 = some (encodeInt32 n.nextLeaf) ∧
      (∀ j : Nat, 12 + 12 * n.length.toNat ≤ j → j < pageSize → page[j]? = some 0) := by
  have hk := hwf.1
  have hr := hwf.2
  have hn : n.length.toNat = n.keys.length := by omega
  have hnk : 12 + 12 * n.keys.length ≤ pageSize := by omega
  refine ⟨leafPage n pageSize, leaf_write_eq n pageSize hwf hnk,
    leafPage_length n pageSize hwf hnk, ?_, by decide, ?_, ?_, ?_, ?_⟩
  · have := memcpyFrom_mid [] (encodeInt32 n.isLeaf)
      (encodeInt32 n.length ++ (leafEntryBytes n.records n.keys
        ++ (encodeInt32 n.nextLeaf
          ++ List.replicate (pageSize - (12 + 12 * n.keys.length)) 0))) 0 4 rfl
      (encodeInt32_length _).symm
    rw [hleaf] at this
    simpa [leafPage, hleaf] using this
  · exact memcpyFrom_mid _ _ _ _ _ (encodeInt32_length _).symm (encodeInt32_length _).symm
  · intro i k r hki hri
    have hb : leafPage n pageSize
        = (encodeInt32 n.isLeaf ++ encodeInt32 n.length)
          ++ (leafEntryBytes n.records n.keys ++ (encodeInt32 n.nextLeaf
            ++ List.replicate (pageSize - (12 + 12 * n.keys.length)) 0)) := by
      simp [leafPage]
    rw [hb]
    exact leafEntryBytes_slice n.keys n.records i k r _ _ _ hr hki hri
      (by simp [encodeInt32_length])
  · have hb : leafPage n pageSize
        = (encodeInt32 n.isLeaf ++ encodeInt32 n.length ++ leafEntryBytes n.records n.keys)
          ++ (encodeInt32 n.nextLeaf
            ++ List.replicate (pageSize - (12 + 12 * n.keys.length)) 0) := by
      simp [leafPage]
    rw [hb, hn]
    exact memcpyFrom_mid _ _ _ _ _
      (by simp [encodeInt32_length, leafEntryBytes_length n.keys n.records hr]; omega)
      (encodeInt32_length _).symm
  · intro j hj1 hj2
    have hb : leafPage n pageSize
        = (encodeInt32 n.isLeaf ++ encodeInt32 n.length ++ leafEntryBytes n.records n.keys
            ++ encodeInt32 n.nextLeaf)
          ++ List.replicate (pageSize - (12 + 12 * n.keys.length)) 0 := by
      simp [leafPage]
    have hl : (encodeInt32 n.isLeaf ++ encodeInt32 n.length
        ++ leafEntryBytes n.records n.keys ++ encodeInt32 n.nextLeaf).length
          = 12 + 12 * n.keys.length := by
      simp [encodeInt32_length, leafEntryBytes_length n.keys n.records hr]; omega
    rw [hb, List.getElem?_append_right (by rw [hl]; omega), hl,
      List.getElem?_replicate]
    rw [if_pos (by omega)]

set_option maxRecDepth 100000 in
/-- C16 at the leaf with keys `10, 20, 30` and a page of 1024 bytes: the first 48
bytes of the page, and the byte at offset 48. -/
theorem leaf_page_layout_witness :
    (∃ page : List Nat, exampleLeaf3.write 1024 = some (RC.ok, page) ∧ page.length = 1024 ∧
      memcpyFrom page 0 4 = some (encodeInt32 1) ∧ encodeInt32 1 = [1, 0, 0, 0] ∧
      memcpyFrom page 4 4 = some (encodeInt32 exampleLeaf3.length) ∧
      (∀ (i : Nat) (k : Int) (r : RecordId),
        exampleLeaf3.keys[i]? = some k → exampleLeaf3.records[i]? = some r →
        memcpyFrom page (8 + 12 * i) 12
          = some (encodeInt32 r.pid ++ encodeInt32 r.sid ++ encodeInt32 k)) ∧
      memcpyFrom page (8 + 12 * exampleLeaf3.length.toNat) 4
        = some (encodeInt32 exampleLeaf3.nextLeaf) ∧
      (∀ j : Nat, 12 + 12 * exampleLeaf3.length.toNat ≤ j → j < 1024 →
        page[j]? = some 0)) ∧
    (exampleLeaf3.write 1024).map (fun p => (p.2.take 48, p.2[48]?))
      = some ([1, 0, 0, 0, 3, 0, 0, 0,
          1, 0, 0, 0, 1, 0, 0, 0, 10, 0, 0, 0,
          2, 0, 0, 0, 2, 0, 0, 0, 20, 0, 0, 0,
          3, 0, 0, 0, 3, 0, 0, 0, 30, 0, 0, 0,
          255, 255, 255, 255], some 0) :=
  ⟨leaf_page_layout exampleLeaf3 1024 (by decide) (by decide) (by decide) (by decide),
    rfl⟩

/-! ## Leaf `read` into a node that already holds entries -/

/-- C17: what `read` does with a well-formed leaf page (the page `write` produces for
a leaf `n` with `length ≤ 75`) when the receiving node `n0` is in an arbitrary
state.  `length` and the next-leaf pointer are taken from the page, but the entries
of the page are appended to the lists `n0` already holds: the lists are not
cleared.  So when `n0` already holds a key, the entry sequence after `read` is not
the one of the page, and `length` is not the number of stored keys. -/
theorem leaf_read_appends (n0 n : BTLeafNode) (pageSize : Nat) (hps : 924 ≤ pageSize)
    (hwf : n.WF) (hlen : n.length ≤ 75)
    (hik : ∀ k ∈ n.keys, isInt32 k) (hir : ∀ r ∈ n.records, isInt32 r.pid ∧ isInt32 r.sid)
    (hin : isInt32 n.nextLeaf) :
    ∃ (page : List Nat) (n1 : BTLeafNode),
      n.write pageSize = some (RC.ok, page) ∧ n0.read page = some (RC.ok, n1) ∧
      n1.length = n.length ∧ n1.nextLeaf = n.nextLeaf ∧
      n1.keys = n0.keys ++ n.keys ∧ n1.records = n0.records ++ n.records ∧
      (n0.keys = [] → n0.records = [] → n1.entries = n.entries) ∧
      (n0.keys ≠ [] → n1.keys ≠ n.keys ∧ (n1.keys.length : Int) ≠ n1.length) := by
  have hk := hwf.1
  have hnk : 12 + 12 * n.keys.length ≤ pageSize := by omega
  have hnl : isInt32 n.length := by constructor <;> omega
  refine ⟨leafPage n pageSize, _, leaf_write_eq n pageSize hwf hnk,
    leaf_read_eq n0 n pageSize hwf hnl hik hir hin, rfl, rfl, rfl, rfl, ?_, ?_⟩
  · intro h1 h2
    simp [BTLeafNode.entries, h1, h2]
  · intro hne
    have hpos : 0 < n0.keys.length := List.length_pos.mpr hne
    constructor
    · intro h
      have := congrArg List.length h
      simp only [List.length_append] at this
      omega
    · simp only [List.length_append, Nat.cast_add]
      omega

/-- C17 at a concrete input: the node that holds the keys `10, 20, 30` reads the page
of the leaf with the single key `5`.  Afterwards `length` is `1` but the keys are
`10, 20, 30, 5`, and entry `0` is still the old entry with key `10`. -/
theorem leaf_read_appends_witness :
    ∃ (page : List Nat) (n1 : BTLeafNode),
      exampleLeaf1.write 1024 = some (RC.ok, page) ∧
      exampleLeaf3.read page = some (RC.ok, n1) ∧
      n1.length = 1 ∧ n1.keys = [10, 20, 30, 5] ∧ n1.keys ≠ exampleLeaf1.keys ∧
      n1.readEntry 0 0 { pid := 0, sid := 0 } = some (RC.ok, 10, { pid := 1, sid := 1 }) := by
  obtain ⟨page, n1, h1, h2, h3, _, h5, h6, _, h8⟩ :=
    leaf_read_appends exampleLeaf3 exampleLeaf1 1024 (by decide) (by decide) (by decide)
      (by decide) (by decide) (by decide)
  refine ⟨page, n1, h1, h2, h3, h5, (h8 (by decide)).1, ?_⟩
  have hl : ¬ ((0 : Int) ≥ n1.length ∨ (0 : Int) < 0) := by rw [h3]; decide
  simp only [BTLeafNode.readEntry, if_neg hl, h5, h6]
  rfl

/-! ## Routing lemmas -/

theorem locateChildLoop_skip (s last : Int) (ks1 : List Int) :
    ∀ (ps1 ks2 ps2 : List Int), ps1.length = ks1.length → (∀ a ∈ ks1, ¬ s < a) →
      BTNonLeafNode.locateChildLoop s last (ks1 ++ ks2) (ps1 ++ ps2)
        = BTNonLeafNode.locateChildLoop s last ks2 ps2 := by
  induction ks1 with
  | nil =>
    intro ps1 ks2 ps2 h _
    have : ps1 = [] := List.length_eq_zero.mp (by simpa using h)
    subst this
    simp
  | cons k ks1 ih =>
    intro ps1 ks2 ps2 h hall
    cases ps1 with
    | nil => simp at h
    | cons p ps1 =>
      simp only [List.length_cons, add_left_inj] at h
      have hk : ¬ s < k := hall k (by simp)
      simp only [List.cons_append, BTNonLeafNode.locateChildLoop, if_neg hk]
      exact ih ps1 ks2 ps2 h (fun a ha => hall a (List.mem_cons_of_mem _ ha))

theorem locateChildLoop_cut (s last : Int) (ks1 : List Int) :
    ∀ (ps1 ks2 ps2 : List Int) (k p : Int), ps1.length = ks1.length → s < k →
      BTNonLeafNode.locateChildLoop s last (ks1 ++ k :: ks2) (ps1 ++ p :: ps2)
        = BTNonLeafNode.locateChildLoop s p ks1 ps1 := by
  induction ks1 with
  | nil =>
    intro ps1 ks2 ps2 k p h hlt
    have : ps1 = [] := List.length_eq_zero.mp (by simpa using h)
    subst this
    simp [BTNonLeafNode.locateChildLoop, hlt]
  | cons k1 ks1 ih =>
    intro ps1 ks2 ps2 k p h hlt
    cases ps1 with
    | nil => simp at h
    | cons p1 ps1 =>
      simp only [List.length_cons, add_left_inj] at h
      simp only [List.cons_append, BTNonLeafNode.locateChildLoop]
      split
      · rfl
      · exact ih ps1 ks2 ps2 k p h hlt

theorem split_at_38 (l : List Int) (x : Int) (hx : l[38]? = some x) :
    l = l.take 38 ++ x :: l.drop 39 := by
  obtain ⟨hlt, hget⟩ := List.getElem?_eq_some.mp hx
  conv_lhs => rw [← List.take_append_drop 38 l, List.drop_eq_getElem_cons hlt, hget]

/-- C18: for a non-leaf node with 75 entries in non-decreasing key order and an empty
sibling, let `F` be the 76-entry node of the unchecked ordered insertion and
`midKey` the key `insertAndSplit` returns.  For every search key `s`,
`locateChildPtr s` on `F` gives what it gives on the node left behind when
`s < midKey`, and what it gives on the sibling when `s ≥ midKey`. -/
theorem nonleaf_split_preserves_routing (n : BTNonLeafNode) (key pid : Int)
    (sid slast midKey : Int) (s : Int)
    (hwf : n.WF) (hlen : n.length = 75) (hs : n.keys.Sorted (· ≤ ·)) :
    ∃ (F : BTNonLeafNode) (r : BTNonLeafNode.SplitResult),
      n.insertWithoutCheck key pid = some (RC.ok, F) ∧
      n.insertAndSplit key pid (BTNonLeafNode.create sid slast) midKey = some r ∧
      r.rc = RC.ok ∧
      (∃ out : Int, F.locateChildPtr s = some (RC.ok, out)) ∧
      (s < r.midKey → F.locateChildPtr s = r.node.locateChildPtr s) ∧
      (s ≥ r.midKey → F.locateChildPtr s = r.sibling.locateChildPtr s) := by
  obtain ⟨hk, hp⟩ := hwf
  obtain ⟨F, h1, _, hkeys, _, hK, hP, hL, _, _⟩ := nonleaf_insertWithoutCheck_eq n key pid hp
  have hK76 : F.keys.length = 76 := by omega
  have hP76 : F.pages.length = 76 := by omega
  obtain ⟨mid, midPid, hmid, hmidPid, heq⟩ :=
    nonleaf_insertAndSplit_eq n F key pid (BTNonLeafNode.create sid slast) midKey hlen h1
      hK76 hP76 (by omega)
  simp only [BTNonLeafNode.create, List.nil_append, zero_add] at heq
  have hsF : F.keys.Sorted (· ≤ ·) := by
    rw [hkeys]; exact listInsert_scan_sorted key n.keys hs
  have ek := split_at_38 F.keys mid hmid
  have ep := split_at_38 F.pages midPid hmidPid
  have hlt38 : (F.pages.take 38).length = (F.keys.take 38).length := by
    simp [hK76, hP76]
  obtain ⟨out, ho, _⟩ := locateChildLoop_spec s F.lastId F.keys F.pages (by omega)
  refine ⟨F, _, h1, heq, rfl, ⟨out, by simp [BTNonLeafNode.locateChildPtr, ho]⟩, ?_, ?_⟩
  · intro hsm
    have := locateChildLoop_cut s F.lastId (F.keys.take 38) (F.pages.take 38)
      (F.keys.drop 39) (F.pages.drop 39) mid midPid hlt38 hsm
    rw [← ek, ← ep] at this
    simp only [BTNonLeafNode.locateChildPtr, this]
  · intro hsm
    have hle : ∀ a ∈ F.keys.take 38 ++ [mid], ¬ s < a := by
      intro a ha
      simp only [List.mem_append, List.mem_singleton] at ha
      rcases ha with ha | rfl
      · rw [ek] at hsF
        have h2 := (List.pairwise_append.mp hsF).2.2 a ha mid (by simp)
        simp only at hsm
        omega
      · simp only at hsm
        omega
    have := locateChildLoop_skip s F.lastId (F.keys.take 38 ++ [mid])
      (F.pages.take 38 ++ [midPid]) (F.keys.drop 39) (F.pages.drop 39)
      (by simp [hK76, hP76]) hle
    simp only [List.append_assoc, List.singleton_append] at this
    rw [← ek, ← ep] at this
    simp only [BTNonLeafNode.locateChildPtr, this, BTNonLeafNode.setLastId]

set_option maxRecDepth 100000 in
/-- C18 at the full non-leaf node with keys `1..75` and pointers `500..574`, inserting
key `76` with child `200` (so `midKey = 39`): search key `20` is routed to `520` by
the unsplit node and by the node left behind, and search key `50` to `550` by the
unsplit node and by the sibling. -/
theorem nonleaf_split_preserves_routing_witness :
    ∃ (F : BTNonLeafNode) (r : BTNonLeafNode.SplitResult),
      exampleNonLeaf75.insertWithoutCheck 76 200 = some (RC.ok, F) ∧
      exampleNonLeaf75.insertAndSplit 76 200 (BTNonLeafNode.create 9 0) 0 = some r ∧
      r.midKey = 39 ∧
      F.locateChildPtr 20 = some (RC.ok, 520) ∧
      r.node.locateChildPtr 20 = some (RC.ok, 520) ∧
      F.locateChildPtr 50 = some (RC.ok, 550) ∧
      r.sibling.locateChildPtr 50 = some (RC.ok, 550) := by
  obtain ⟨F, r, h1, h2, _, _, h5, _⟩ :=
    nonleaf_split_preserves_routing exampleNonLeaf75 76 200 9 0 0 20
      (by decide) (by decide) (by decide)
  obtain ⟨F2, r2, k1, k2, _, _, _, k6⟩ :=
    nonleaf_split_preserves_routing exampleNonLeaf75 76 200 9 0 0 50
      (by decide) (by decide) (by decide)
  have hF : F2 = F := by
    have := k1.symm.trans h1
    simp only [Option.some.injEq, Prod.mk.injEq, true_and] at this
    exact this
  have hr : r2 = r := Option.some.inj (k2.symm.trans h2)
  subst hF hr
  have hev : ∃ (F0 : BTNonLeafNode) (r0 : BTNonLeafNode.SplitResult),
      exampleNonLeaf75.insertWithoutCheck 76 200 = some (RC.ok, F0) ∧
      exampleNonLeaf75.insertAndSplit 76 200 (BTNonLeafNode.create 9 0) 0 = some r0 ∧
      r0.midKey = 39 ∧ F0.locateChildPtr 20 = some (RC.ok, 520) ∧
      F0.locateChildPtr 50 = some (RC.ok, 550) :=
    ⟨_, _, rfl, rfl, rfl, by decide, by decide⟩
  obtain ⟨F0, r0, e1, e2, e3, e4, e5⟩ := hev
  have hF0 : F0 = F2 := by
    have := e1.symm.trans k1
    simp only [Option.some.injEq, Prod.mk.injEq, true_and] at this
    exact this
  have hr0 : r0 = r2 := Option.some.inj (e2.symm.trans k2)
  subst hF0 hr0
  refine ⟨F0, r0, e1, e2, e3, e4, ?_, e5, ?_⟩
  · rw [← h5 (by rw [e3]; decide)]; exact e4
  · rw [← k6 (by rw [e3]; decide)]; exact e5

/-! ## Insert, then look up -/

theorem locateLoop_hit (s : Int) (front : List Int) :
    ∀ (rest : List Int) (eid : Int), (∀ a ∈ front, a < s) →
      BTLeafNode.locateLoop s (front ++ s :: rest) eid = (RC.ok, eid + (front.length : Nat)) := by
  induction front with
  | nil => intro rest eid _; simp [BTLeafNode.locateLoop]
  | cons a front ih =>
    intro rest eid hall
    have ha : a < s := hall a (by simp)
    have h1 : ¬ s = a := by omega
    have h2 : ¬ s < a := by omega
    have hcons : (a :: front) ++ s :: rest = a :: (front ++ s :: rest) := rfl
    rw [hcons]
    simp only [BTLeafNode.locateLoop, if_neg h1, if_neg h2]
    rw [ih rest (eid + 1) (fun b hb => hall b (List.mem_cons_of_mem _ hb))]
    have harith : eid + 1 + ((front.length : Nat) : Int)
        = eid + (((a :: front).length : Nat) : Int) := by
      simp only [List.length_cons, Nat.cast_add, Nat.cast_one]
      omega
    rw [harith]

theorem locate_hit (n : BTLeafNode) (s : Int) (front rest : List Int)
    (hkeys : n.keys = front ++ s :: rest) (hall : ∀ a ∈ front, a < s) :
    n.locate s = some (RC.ok, ((front.length : Nat) : Int)) := by
  have hloop := locateLoop_hit s front rest 0 hall
  cases front with
  | nil =>
    simp only [List.nil_append] at hkeys hloop
    simp only [BTLeafNode.locate, hkeys, lt_self_iff_false, if_false, hloop]
    simp
  | cons a front =>
    have ha : ¬ s < a := by
      have := hall a (by simp)
      omega
    have hcons : (a :: front) ++ s :: rest = a :: (front ++ s :: rest) := rfl
    rw [hcons] at hkeys hloop
    simp only [BTLeafNode.locate, hkeys, if_neg ha, hloop]
    simp

/-- C19: for a leaf with fewer than 75 entries in non-decreasing key order
(duplicates allowed), after a successful `insert(key, rid)`, `locate(key)` returns
success with an index `i`, and `readEntry(i)` returns success with exactly
`(key, rid)`: the new entry stands before the stored entries with an equal key, and
`locate` stops at the first match. -/
theorem leaf_insert_then_locate (n : BTLeafNode) (key : Int) (rid : RecordId)
    (k0 : Int) (r0 : RecordId)
    (hwf : n.WF) (hlen : n.length < 75) (hs : n.keys.Sorted (· ≤ ·)) :
    ∃ (n1 : BTLeafNode) (i : Int),
      n.insert key rid = some (RC.ok, n1) ∧
      n1.locate key = some (RC.ok, i) ∧
      n1.readEntry i k0 r0 = some (RC.ok, key, rid) ∧
      n1.keys.Sorted (· ≤ ·) ∧
      (∀ j : Nat, (j : Int) < i → n1.keys[j]? ≠ some key) := by
  obtain ⟨hk, hr⟩ := hwf
  have hle := scanIndex_le key n.keys
  have hnot : ¬ (n.length ≥ (MAX_KEYS : Int)) := by simp [MAX_KEYS]; omega
  have hlt := scanIndex_take_lt key n.keys
  have hlen1 : (n.keys.take (scanIndex key n.keys)).length = scanIndex key n.keys := by
    simp; omega
  have hlen2 : (n.records.take (scanIndex key n.keys)).length = scanIndex key n.keys := by
    simp; omega
  have hloc := locate_hit
    { n with keys := listInsert n.keys (scanIndex key n.keys) key
             records := listInsert n.records (scanIndex key n.keys) rid
             length := n.length + 1 } key
    (n.keys.take (scanIndex key n.keys)) (n.keys.drop (scanIndex key n.keys)) rfl hlt
  rw [hlen1] at hloc
  refine ⟨_, ((scanIndex key n.keys : Nat) : Int), ?_, hloc, ?_, listInsert_scan_sorted key n.keys hs,
    ?_⟩
  · simp only [BTLeafNode.insert, if_neg hnot, leaf_insertWithoutCheck_eq n key rid hr]
  · have hc : ¬ (((scanIndex key n.keys : Nat) : Int) ≥ n.length + 1
        ∨ ((scanIndex key n.keys : Nat) : Int) < 0) := by omega
    have e1 : (listInsert n.keys (scanIndex key n.keys) key)[scanIndex key n.keys]?
        = some key := by
      simp only [listInsert]
      rw [List.getElem?_append_right (by omega), hlen1]
      simp
    have e2 : (listInsert n.records (scanIndex key n.keys) rid)[scanIndex key n.keys]?
        = some rid := by
      simp only [listInsert]
      rw [List.getElem?_append_right (by omega), hlen2]
      simp
    simp only [BTLeafNode.readEntry, if_neg hc, Int.toNat_ofNat, e1, e2]
  · intro j hj
    have hj2 : j < scanIndex key n.keys := by omega
    simp only [listInsert]
    rw [List.getElem?_append_left (by omega)]
    intro h
    have hm : key ∈ n.keys.take (scanIndex key n.keys) := List.getElem?_mem h
    have := hlt key hm
    omega

/-- C19 at the leaf with keys `10, 20, 30`: after inserting key `20` with record
identifier `(9, 9)`, `locate(20)` gives index `1` and `readEntry(1)` gives
`(20, (9, 9))`, the new entry and not the older one with key `20`. -/
theorem leaf_insert_then_locate_witness :
    exampleLeaf3.WF ∧ exampleLeaf3.length < 75 ∧ exampleLeaf3.keys.Sorted (· ≤ ·) ∧
    (∃ (n1 : BTLeafNode) (i : Int),
      exampleLeaf3.insert 20 { pid := 9, sid := 9 } = some (RC.ok, n1) ∧
      n1.locate 20 = some (RC.ok, i) ∧
      n1.readEntry i 0 { pid := 0, sid := 0 } = some (RC.ok, 20, { pid := 9, sid := 9 }) ∧
      n1.keys.Sorted (· ≤ ·) ∧
      (∀ j : Nat, (j : Int) < i → n1.keys[j]? ≠ some 20)) ∧
    (∃ n1 : BTLeafNode,
      exampleLeaf3.insert 20 { pid := 9, sid := 9 } = some (RC.ok, n1) ∧
      n1.locate 20 = some (RC.ok, 1) ∧
      n1.readEntry 1 0 { pid := 0, sid := 0 } = some (RC.ok, 20, { pid := 9, sid := 9 })) :=
  ⟨by decide, by decide, by decide,
    leaf_insert_then_locate exampleLeaf3 20 { pid := 9, sid := 9 } 0 { pid := 0, sid := 0 }
      (by decide) (by decide) (by decide),
    ⟨_, rfl, by decide, by decide⟩⟩

/-! ## Non-leaf insert and routing -/

theorem listInsert_scan_strict (key : Int) (ks : List Int) (hs : ks.Sorted (· < ·))
    (hnot : key ∉ ks) : (listInsert ks (scanIndex key ks) key).Sorted (· < ·) := by
  induction ks with
  | nil => simp [listInsert, scanIndex]
  | cons k ks ih =>
    have hs' := List.sorted_cons.mp hs
    have hne : key ≠ k := fun h => hnot (by simp [h])
    have hnot2 : key ∉ ks := fun h => hnot (List.mem_cons_of_mem _ h)
    simp only [scanIndex]
    split
    · rename_i hlt
      have : listInsert (k :: ks) (scanIndex key ks + 1) key
          = k :: listInsert ks (scanIndex key ks) key := by simp [listInsert]
      rw [this]
      refine List.sorted_cons.mpr ⟨?_, ih hs'.2 hnot2⟩
      intro b hb
      simp only [listInsert, List.mem_append, List.mem_cons] at hb
      rcases hb with hb | rfl | hb
      · exact hs'.1 b (List.mem_of_mem_take hb)
      · exact hlt
      · exact hs'.1 b (List.mem_of_mem_drop hb)
    · rename_i hge
      have : listInsert (k :: ks) 0 key = key :: k :: ks := by simp [listInsert]
      rw [this]
      refine List.sorted_cons.mpr ⟨?_, hs⟩
      intro b hb
      simp only [List.mem_cons] at hb
      rcases hb with rfl | hb
      · omega
      · have := hs'.1 b hb
        omega

/-- C20: for a non-leaf node with at least one and fewer than 75 entries whose keys are
strictly increasing and do not contain `key`, after a successful
`insert(key, childPtr)`, `locateChildPtr(key)` outputs `childPtr`, and for every
search key `s < key`, `locateChildPtr(s)` outputs the same pointer as before the
insert. -/
theorem nonleaf_insert_routes_new_child (n : BTNonLeafNode) (key pid : Int)
    (hwf : n.WF) (hne : 1 ≤ n.length) (hlen : n.length < 75)
    (hs : n.keys.Sorted (· < ·)) (hnot : key ∉ n.keys) :
    ∃ n1 : BTNonLeafNode, n.insert key pid = some (RC.ok, n1) ∧
      n1.locateChildPtr key = some (RC.ok, pid) ∧
      (∀ s : Int, s < key →
        n1.locateChildPtr s = n.locateChildPtr s ∧
        ∃ out : Int, n.locateChildPtr s = some (RC.ok, out)) ∧
      n1.keys.Sorted (· < ·) ∧ 2 ≤ n1.length := by
  obtain ⟨hk, hp⟩ := hwf
  obtain ⟨n1, h1, _, hkeys, _, hK, hP, hL, _, _⟩ := nonleaf_insertWithoutCheck_eq n key pid hp
  obtain ⟨hc1, hc2⟩ := nonleaf_insertWithoutCheck_cases n n1 key pid h1
  have hnotfull : ¬ (n.length ≥ (MAX_KEYS : Int)) := by simp [MAX_KEYS]; omega
  have hle := scanIndex_le key n.keys
  have hlt := scanIndex_take_lt key n.keys
  have hskip : ∀ a ∈ n.keys.take (scanIndex key n.keys), ¬ key < a := by
    intro a ha
    have := hlt a ha
    omega
  have hlenA : (n.pages.take (scanIndex key n.keys)).length
      = (n.keys.take (scanIndex key n.keys)).length := by
    simp [hp]
  have hold : ∀ s : Int, ∃ out : Int, n.locateChildPtr s = some (RC.ok, out) := by
    intro s
    obtain ⟨out, ho, _⟩ := locateChildLoop_spec s n.lastId n.keys n.pages hp
    exact ⟨out, by simp [BTNonLeafNode.locateChildPtr, ho]⟩
  refine ⟨n1, by simp only [BTNonLeafNode.insert, if_neg hnotfull, h1], ?_, ?_,
    by rw [hkeys]; exact listInsert_scan_strict key n.keys hs hnot, by omega⟩
  · by_cases he : scanIndex key n.keys = n.keys.length
    · obtain ⟨e1, e2⟩ := hc1 he
      have hall : ∀ a ∈ n.keys, ¬ key < a := by
        intro a ha
        have := (scanIndex_eq_length_iff key n.keys).mp he a ha
        omega
      have hkeys2 : n1.keys = n.keys ++ [key] := by
        rw [hkeys, he]; simp [listInsert]
      have := locateChildLoop_skip key n1.lastId n.keys n.pages [key] [n.lastId] hp hall
      simp only [BTNonLeafNode.locateChildPtr, hkeys2, e1, this]
      simp [BTNonLeafNode.locateChildLoop, e2]
    · have hi : scanIndex key n.keys < n.keys.length := by omega
      have hip : scanIndex key n.keys < n.pages.length := by omega
      obtain ⟨e1, e2⟩ := hc2 hi
      have hb : key < n.keys[scanIndex key n.keys] := by
        have h1 := scanIndex_drop_head key n.keys (n.keys[scanIndex key n.keys])
          (by rw [List.drop_eq_getElem_cons hi]; simp)
        have h2 : n.keys[scanIndex key n.keys] ≠ key := by
          intro h
          exact hnot (h ▸ List.getElem_mem hi)
        omega
      have hkeys2 : n1.keys = n.keys.take (scanIndex key n.keys)
          ++ key :: n.keys[scanIndex key n.keys] :: n.keys.drop (scanIndex key n.keys + 1) := by
        rw [hkeys]; simp only [listInsert]; rw [List.drop_eq_getElem_cons hi]
      have hpages2 : n1.pages = n.pages.take (scanIndex key n.keys)
          ++ n.pages[scanIndex key n.keys] :: pid
            :: n.pages.drop (scanIndex key n.keys + 1) := by
        rw [e1]; simp only [listInsert]
        rw [List.take_succ, List.getElem?_eq_getElem hip]
        simp only [Option.toList, List.append_assoc, List.singleton_append]
      have := locateChildLoop_skip key n1.lastId (n.keys.take (scanIndex key n.keys))
        (n.pages.take (scanIndex key n.keys))
        (key :: n.keys[scanIndex key n.keys] :: n.keys.drop (scanIndex key n.keys + 1))
        (n.pages[scanIndex key n.keys] :: pid :: n.pages.drop (scanIndex key n.keys + 1))
        hlenA hskip
      simp only [BTNonLeafNode.locateChildPtr, hkeys2, hpages2, this]
      simp [BTNonLeafNode.locateChildLoop, hb]
  · intro s hsk
    refine ⟨?_, hold s⟩
    by_cases he : scanIndex key n.keys = n.keys.length
    · obtain ⟨e1, e2⟩ := hc1 he
      have hkeys2 : n1.keys = n.keys ++ [key] := by
        rw [hkeys, he]; simp [listInsert]
      have := locateChildLoop_cut s n1.lastId n.keys n.pages [] [] key n.lastId hp hsk
      simp only [BTNonLeafNode.locateChildPtr, hkeys2, e1, this]
    · have hi : scanIndex key n.keys < n.keys.length := by omega
      have hip : scanIndex key n.keys < n.pages.length := by omega
      obtain ⟨e1, e2⟩ := hc2 hi
      have hb : key ≤ n.keys[scanIndex key n.keys] :=
        scanIndex_drop_head key n.keys (n.keys[scanIndex key n.keys])
          (by rw [List.drop_eq_getElem_cons hi]; simp)
      have hkeys2 : n1.keys = n.keys.take (scanIndex key n.keys)
          ++ key :: n.keys[scanIndex key n.keys] :: n.keys.drop (scanIndex key n.keys + 1) := by
        rw [hkeys]; simp only [listInsert]; rw [List.drop_eq_getElem_cons hi]
      have hpages2 : n1.pages = n.pages.take (scanIndex key n.keys)
          ++ n.pages[scanIndex key n.keys] :: pid
            :: n.pages.drop (scanIndex key n.keys + 1) := by
        rw [e1]; simp only [listInsert]
        rw [List.take_succ, List.getElem?_eq_getElem hip]
        simp only [Option.toList, List.append_assoc, List.singleton_append]
      have hok : n.keys = n.keys.take (scanIndex key n.keys)
          ++ n.keys[scanIndex key n.keys] :: n.keys.drop (scanIndex key n.keys + 1) := by
        conv_lhs => rw [← List.take_append_drop (scanIndex key n.keys) n.keys,
          List.drop_eq_getElem_cons hi]
      have hop : n.pages = n.pages.take (scanIndex key n.keys)
          ++ n.pages[scanIndex key n.keys] :: n.pages.drop (scanIndex key n.keys + 1) := by
        conv_lhs => rw [← List.take_append_drop (scanIndex key n.keys) n.pages,
          List.drop_eq_getElem_cons hip]
      have hnew := locateChildLoop_cut s n1.lastId (n.keys.take (scanIndex key n.keys))
        (n.pages.take (scanIndex key n.keys))
        (n.keys[scanIndex key n.keys] :: n.keys.drop (scanIndex key n.keys + 1))
        (pid :: n.pages.drop (scanIndex key n.keys + 1)) key
        (n.pages[scanIndex key n.keys]) hlenA hsk
      have holdc := locateChildLoop_cut s n.lastId (n.keys.take (scanIndex key n.keys))
        (n.pages.take (scanIndex key n.keys))
        (n.keys.drop (scanIndex key n.keys + 1))
        (n.pages.drop (scanIndex key n.keys + 1)) (n.keys[scanIndex key n.keys])
        (n.pages[scanIndex key n.keys]) hlenA (by omega)
      rw [← hok, ← hop] at holdc
      simp only [BTNonLeafNode.locateChildPtr, hkeys2, hpages2, hnew, holdc]

/-- C20 at the node with keys `10, 20`, pointers `1, 2` and last pointer `3`: after
inserting key `15` with child `9`, search key `15` is routed to `9`, and the search
keys `5` and `12`, both less than `15`, are routed to `1` and `2` as before. -/
theorem nonleaf_insert_routes_new_child_witness :
    exampleNonLeaf2.WF ∧ 1 ≤ exampleNonLeaf2.length ∧ exampleNonLeaf2.length < 75 ∧
    exampleNonLeaf2.keys.Sorted (· < ·) ∧ 15 ∉ exampleNonLeaf2.keys ∧
    (∃ n1 : BTNonLeafNode, exampleNonLeaf2.insert 15 9 = some (RC.ok, n1) ∧
      n1.locateChildPtr 15 = some (RC.ok, 9) ∧
      (∀ s : Int, s < 15 →
        n1.locateChildPtr s = exampleNonLeaf2.locateChildPtr s ∧
        ∃ out : Int, exampleNonLeaf2.locateChildPtr s = some (RC.ok, out)) ∧
      n1.keys.Sorted (· < ·) ∧ 2 ≤ n1.length) ∧
    (∃ n1 : BTNonLeafNode, exampleNonLeaf2.insert 15 9 = some (RC.ok, n1) ∧
      n1.locateChildPtr 5 = some (RC.ok, 1) ∧ exampleNonLeaf2.locateChildPtr 5 = some (RC.ok, 1) ∧
      n1.locateChildPtr 12 = some (RC.ok, 2) ∧
      exampleNonLeaf2.locateChildPtr 12 = some (RC.ok, 2)) :=
  ⟨by decide, by decide, by decide, by decide, by decide,
    nonleaf_insert_routes_new_child exampleNonLeaf2 15 9 (by decide) (by decide) (by decide)
      (by decide) (by decide),
    ⟨_, rfl, by decide, by decide, by decide, by decide⟩⟩

/-! ## Non-leaf `insertAndSplit` with a repeated key -/

set_option maxRecDepth 100000 in
/-- C3, a counterexample to the claim as stated: the full non-leaf node with the keys
`1..75` (in non-decreasing order) and an empty sibling, inserting key `39` with
child `200`.  The split succeeds and returns `midKey = 39`, and the value `39` is
also the first key of the sibling: the stored key `39` follows the inserted one. -/
theorem nonleaf_insertAndSplit_middle_counterexample :
    exampleNonLeaf75.WF ∧ exampleNonLeaf75.length = 75 ∧
    exampleNonLeaf75.keys.Sorted (· ≤ ·) ∧
    (∃ r : BTNonLeafNode.SplitResult,
      exampleNonLeaf75.insertAndSplit 39 200 (BTNonLeafNode.create 9 0) 0 = some r ∧
      r.rc = RC.ok ∧ r.midKey = 39 ∧ r.sibling.keys.head? = some 39 ∧
      r.midKey ∈ r.sibling.keys) :=
  ⟨by decide, by decide, by decide, ⟨_, rfl, rfl, rfl, rfl, by decide⟩⟩

end BTreeNode
